import Mathlib

/-!
# huma: the resource tree and its OpenAPI compiler (`resource.go`)

A shallow embedding of `resource.go`.  A `*Resource` is a node of a tree owned by its
parent's `subResources` slice; Go slices are modelled by their element lists and Go
strings by Lean strings.  What `resource.go` calls but does not define is gathered in
`Collab` (the chi router behind `mux`, `strings.ToLower`, `(*Operation).toOpenAPI`),
and the two `gabs` container methods the compiler uses are embedded in `Container`.
`SubResource` and `callSubResource` give the effect of a call that returns; the panics of
`Route`, which line 105 calls before the child is built, are in `Chi` and `SubResourceOnChi`.
-/

namespace Huma

/-! ## Go maps with string keys -/

/-- A Go `map[string]V`, kept as an association list.  `mapPut` is the only way entries are
written, so a key never occurs twice; `mapGet` reads the entry of a key. -/
abbrev GoMap (V : Type) := List (String × V)

/-- Reading `m[k]` with the comma-ok form: `none` when the key is absent. -/
def mapGet {V : Type} : GoMap V → String → Option V
  | [], _ => none
  | (k0, v) :: rest, k => if k0 = k then some v else mapGet rest k

/-- The assignment `m[k] = v`: overwrite the entry of `k`, or add one. -/
def mapPut {V : Type} : GoMap V → String → V → GoMap V
  | [], k, v => [(k, v)]
  | (k0, v0) :: rest, k, v => if k0 = k then (k, v) :: rest else (k0, v0) :: mapPut rest k v

/-- The keys of a map, in the order the association list holds them. -/
def mapKeys {V : Type} (m : GoMap V) : List String := m.map Prod.fst

/-! ## The gabs container, as far as the compiler drives it -/

/-- What sits under a (path, method) pair of a document: the fragment of one operation, stored
by `Set`, or the `[]interface{}` that `Merge` builds when two values meet at the same place.
A fragment is a leaf for gabs: it is neither a map nor an array. -/
inductive Value (F : Type) where
  | fragment (f : F) : Value F
  | array (fs : List F) : Value F
  deriving DecidableEq, Repr

/-- The fragments a value holds, in order. -/
def Value.fragments {F : Type} : Value F → List F
  | .fragment f => [f]
  | .array fs => fs

/-- A gabs container holding a document: path key, then method key, then value. -/
abbrev Container (F : Type) := GoMap (GoMap (Value F))

/-- The call `gabs.New()`: a container over an empty map. -/
def Container.New {F : Type} : Container F := []

/-- The value found by `doc.Search(path, method)`, if both keys exist. -/
def Container.Search {F : Type} (doc : Container F) (path method : String) : Option (Value F) :=
  (mapGet doc path).bind (fun methods => mapGet methods method)

/-- The call `doc.Set(value, path, method)`: walk to the map under `path`, creating it when
the key is absent, and assign `value` to `method` there, replacing what was there.  The
source discards the error it returns; with a map under `path` it returns none. -/
def Container.Set {F : Type} (doc : Container F) (value : Value F) (path method : String) :
    Container F :=
  match mapGet doc path with
  | none => mapPut doc path (mapPut [] method value)
  | some methods => mapPut doc path (mapPut methods method value)

/-- The collision function that `Merge` hands to `MergeFn`.  The library documents `Merge`
so: when source and destination hold a value that is not an object under the same keys, the
result is an array with both values, and a value that is an array already is expanded into
it.  Nothing is overwritten. -/
def Container.collide {F : Type} : Value F → Value F → Value F
  | .array ds, .array ss => .array (ds ++ ss)
  | .array ds, .fragment s => .array (ds ++ [s])
  | .fragment d, .array ss => .array ([d] ++ ss)
  | .fragment d, .fragment s => .array [d, s]

/-- The inner level of `MergeFn`: the source has a map under `path` and so has the
destination; every method key of the source is set in the destination, through
`collisionFn` when the destination has that key already. -/
def Container.mergeMethods {F : Type} (collisionFn : Value F → Value F → Value F)
    (path : String) : GoMap (Value F) → Container F → Container F
  | [], g => g
  | (method, value) :: rest, g =>
      match Container.Search g path method with
      | some existing =>
          Container.mergeMethods collisionFn path rest
            (Container.Set g (collisionFn existing value) path method)
      | none => Container.mergeMethods collisionFn path rest (Container.Set g value path method)

/-- The call `g.MergeFn(source, collisionFn)`: every path key of the source is visited; a key
the destination lacks is copied over with its whole method map, a key it has is merged one
method at a time. -/
def Container.MergeFn {F : Type} (collisionFn : Value F → Value F → Value F) :
    Container F → Container F → Container F
  | g, [] => g
  | g, (path, methods) :: rest =>
      match mapGet g path with
      | some _ =>
          Container.MergeFn collisionFn (Container.mergeMethods collisionFn path methods g) rest
      | none => Container.MergeFn collisionFn (mapPut g path methods) rest

/-- The call `g.Merge(source)`: `MergeFn` with the array-building collision function.  The
source discards the error it returns; on documents of this shape it returns none. -/
def Container.Merge {F : Type} (g source : Container F) : Container F :=
  Container.MergeFn Container.collide g source

/-! ## Resources and operations -/

/-- An operation as `resource.go` sees it: the `method` field, and the rest of the record
(identifier, description, responses), which is declared in another file. -/
structure Operation (D : Type) where
  method : String
  details : D
  deriving DecidableEq, Repr

/-- What `resource.go` calls without defining it: `Route` of the chi router held in `mux`,
`strings.ToLower`, and the `toOpenAPI` method of an operation.  `Route` gives the sub-router
that the call returns when it returns; on which patterns it panics instead is the matter of
`Chi`. -/
structure Collab (M D F : Type) where
  Route : M → String → M
  ToLower : String → String
  opToOpenAPI : Operation D → F

/-- The struct `Resource`; `subResources` owns the children. -/
inductive Resource (M R D : Type) where
  | mk (path : String) (mux : M) (router : Option R)
      (subResources : List (Resource M R D)) (operations : List (Operation D))
      (tags : List String) : Resource M R D

variable {M R D F : Type}

/-- Field `path`. -/
def Resource.path : Resource M R D → String
  | .mk p _ _ _ _ _ => p

/-- Field `mux`. -/
def Resource.mux : Resource M R D → M
  | .mk _ m _ _ _ _ => m

/-- Field `router`. -/
def Resource.router : Resource M R D → Option R
  | .mk _ _ ro _ _ _ => ro

/-- Field `subResources`. -/
def Resource.subResources : Resource M R D → List (Resource M R D)
  | .mk _ _ _ s _ _ => s

/-- Field `operations`. -/
def Resource.operations : Resource M R D → List (Operation D)
  | .mk _ _ _ _ o _ => o

/-- Field `tags`. -/
def Resource.tags : Resource M R D → List String
  | .mk _ _ _ _ _ t => t

/-- The second loop of `toOpenAPI`: `doc.Set(op.toOpenAPI(), r.path, strings.ToLower(op.method))`
for every operation of the node, in order. -/
def setOperations (E : Collab M D F) (path : String) :
    List (Operation D) → Container F → Container F
  | [], doc => doc
  | op :: rest, doc =>
      setOperations E path rest
        (Container.Set doc (Value.fragment (E.opToOpenAPI op)) path (E.ToLower op.method))

mutual
/-- The method `toOpenAPI`: merge the documents of the children in list order into a new
container, then set the node's own operations. -/
def Resource.toOpenAPI (E : Collab M D F) : Resource M R D → Container F
  | .mk path _ _ subs ops _ => setOperations E path ops (mergeSubResources E subs Container.New)
/-- The first loop of `toOpenAPI`: `doc.Merge(sub.toOpenAPI())` for every child, in order. -/
def mergeSubResources (E : Collab M D F) : List (Resource M R D) → Container F → Container F
  | [], doc => doc
  | sub :: rest, doc => mergeSubResources E rest (Container.Merge doc (sub.toOpenAPI E))
end

/-! ## Building the tree -/

/-- One turn of the loop of `SubResource`: an empty part is skipped, a part that starts with
a slash is added as it is, any other part is added as a parameter in braces. -/
def appendPart (uriTemplate part : String) : String :=
  if part.utf8ByteSize = 0 then uriTemplate
  else if part.get 0 = '/' then uriTemplate ++ part
  else uriTemplate ++ ("/\x7b" ++ part ++ "\x7d")

/-- The template that the loop of `SubResource` leaves in `uriTemplate`. -/
def uriTemplate (parts : List String) : String :=
  parts.foldl appendPart ""

/-- The node that `SubResource` allocates at line 103, once `Route` has returned the
sub-router for it. -/
def newSubResource (E : Collab M D F) (r : Resource M R D) (parts : List String) :
    Resource M R D :=
  .mk (r.path ++ uriTemplate parts) (E.Route r.mux (uriTemplate parts)) none [] []
    ([] ++ r.tags)

/-- The method `SubResource` on the node `r`, for a call that returns: the node as the call
leaves it, and the new child, which is the last element of its `subResources`.  The call as
the program runs it, with the panic of `Route`, is `SubResourceOnChi`. -/
def Resource.SubResource (E : Collab M D F) (r : Resource M R D) (parts : List String) :
    Resource M R D × Resource M R D :=
  (.mk r.path r.mux r.router (r.subResources ++ [newSubResource E r parts]) r.operations r.tags,
   newSubResource E r parts)

/-- The method `AddTags` on the node `r`: the node as the call leaves it, which is also what
the call returns. -/
def Resource.AddTags (r : Resource M R D) (names : List String) : Resource M R D :=
  .mk r.path r.mux r.router r.subResources r.operations (r.tags ++ names)

/-! ## Pointers into the tree -/

/-- A `*Resource` of a tree: the child indices that lead from the root to the node. -/
abbrev Ptr := List Nat

/-- The node a pointer stands for. -/
def Resource.deref : Resource M R D → Ptr → Option (Resource M R D)
  | r, [] => some r
  | .mk _ _ _ subs _ _, i :: rest =>
      match subs[i]? with
      | some sub => Resource.deref sub rest
      | none => none

/-- The tree after the node behind a pointer has been replaced by `f` of it. -/
def Resource.update (f : Resource M R D → Resource M R D) : Ptr → Resource M R D → Resource M R D
  | [], r => f r
  | i :: rest, .mk p m ro subs ops tags =>
      .mk p m ro (List.modify (Resource.update f rest) i subs) ops tags

/-- The call `r.SubResource(parts...)` on the node behind `p`, for a call that returns: the
tree after the call and the pointer it returns. -/
def callSubResource (E : Collab M D F) (root : Resource M R D) (p : Ptr) (parts : List String) :
    Resource M R D × Ptr :=
  (Resource.update (fun r => (r.SubResource E parts).1) p root,
   p ++ [((root.deref p).map (fun r => r.subResources.length)).getD 0])

/-- The call `r.AddTags(names...)` on the node behind `p`: the tree after the call; the
pointer it returns is `p` itself. -/
def callAddTags (root : Resource M R D) (p : Ptr) (names : List String) : Resource M R D :=
  Resource.update (fun r => r.AddTags names) p root

/-! ## The path rule in the words of the specification -/

/-- The segment the specification gives a non-empty part: the part itself when its first
character is the slash, the part in braces behind a slash otherwise. -/
def specSegment (part : String) : String :=
  if part.data.head? = some '/' then part else "/\x7b" ++ part ++ "\x7d"

/-- The suffix the specification composes: one segment per non-empty part, in input order. -/
def specSuffix (parts : List String) : String :=
  String.join ((parts.filter (fun part => part ≠ "")).map specSegment)


/-! ## Reading documents and trees -/

/-- A container is well formed when no key occurs twice, at either level, and no path key
holds an empty method map. -/
def Container.WF (doc : Container F) : Prop :=
  (mapKeys doc).Nodup ∧ ∀ e ∈ doc, (mapKeys e.2).Nodup ∧ e.2 ≠ []

/-- What `MergeFn` leaves at one place of the destination, given what the destination and the
source hold there. -/
def mergeAt (collisionFn : Value F → Value F → Value F) :
    Option (Value F) → Option (Value F) → Option (Value F)
  | none, s => s
  | some d, none => some d
  | some d, some s => some (collisionFn d s)

mutual
/-- The nodes of a tree: the root, then the nodes of every child subtree in list order. -/
def Resource.nodes : Resource M R D → List (Resource M R D)
  | .mk p m ro subs ops tags => .mk p m ro subs ops tags :: nodesOfList subs
/-- The nodes of a list of trees. -/
def nodesOfList : List (Resource M R D) → List (Resource M R D)
  | [] => []
  | sub :: rest => sub.nodes ++ nodesOfList rest
end

/-- The operations of a list, attached to a node at `path`, that resolve to the pair (p, m):
`path` is `p` and the lowercased method is `m`. -/
def opsResolving (E : Collab M D F) (path p m : String) (ops : List (Operation D)) :
    List (Operation D) :=
  if path = p then ops.filter (fun op => E.ToLower op.method = m) else []

/-- The operations attached to the node itself that resolve to the pair (p, m). -/
def Resource.ownResolving (E : Collab M D F) (p m : String) (r : Resource M R D) :
    List (Operation D) :=
  opsResolving E r.path p m r.operations

/-- The operations of the whole tree that resolve to the pair (p, m). -/
def Resource.resolving (E : Collab M D F) (p m : String) (t : Resource M R D) :
    List (Operation D) :=
  t.nodes.flatMap (Resource.ownResolving E p m)

/-- What the first loop of `toOpenAPI` leaves at (p, m): the entries the children produce there,
merged from left to right. -/
def mergedChildren (E : Collab M D F) (p m : String) (subs : List (Resource M R D)) :
    Option (Value F) :=
  (subs.map (fun sub => Container.Search (sub.toOpenAPI E) p m)).foldl
    (mergeAt Container.collide) none

/-- The entries the children of a node produce at (p, m), in child order. -/
def childEntries (E : Collab M D F) (p m : String) (r : Resource M R D) : List (Value F) :=
  r.subResources.filterMap (fun sub => Container.Search (sub.toOpenAPI E) p m)

/-- The path keys of a document. -/
def Container.paths (doc : Container F) : List String := mapKeys doc

/-- The method keys a document holds under a path key. -/
def Container.methods (doc : Container F) (path : String) : List String :=
  match mapGet doc path with
  | some methods => mapKeys methods
  | none => []

/-! ## Concrete collaborators and trees -/

/-- Collaborators for the worked examples: the router handle is trivial, `ToLower` lowers the
ASCII letters as `strings.ToLower` does on ASCII input, and the fragment of an operation is
its details, here a string. -/
def exampleCollab : Collab Unit String String where
  Route := fun _ _ => ()
  ToLower := fun s => String.mk (s.data.map Char.toLower)
  opToOpenAPI := fun op => op.details

/-- A root at `/` with one GET and one child at `/items` with one POST. -/
def exampleTree : Resource Unit Unit String :=
  .mk "/" () none [.mk "/items" () none [] [⟨"POST", "create-item"⟩] []]
    [⟨"GET", "get-root"⟩] []

/-- A node at `/x` with two GET operations and a child, made by `SubResource()` without parts
and so at `/x` as well, that declares GET too. -/
def exampleShadowed : Resource Unit Unit String :=
  .mk "/x" () none [.mk "/x" () none [] [⟨"GET", "child-get"⟩] []]
    [⟨"GET", "first-get"⟩, ⟨"get", "second-get"⟩] []

/-- A node at `/x` without operations whose two children are both at `/x` and both
declare GET. -/
def exampleSiblings : Resource Unit Unit String :=
  .mk "/x" () none
    [.mk "/x" () none [] [⟨"GET", "first-child"⟩] [],
     .mk "/x" () none [] [⟨"GET", "second-child"⟩] []] [] []

/-- A root with two children and a grandchild, none of them with an operation. -/
def exampleBare : Resource Unit Unit String :=
  .mk "/" () none [.mk "/a" () none [.mk "/a/b" () none [] [] []] [] [], .mk "/c" () none [] [] []]
    [] ["x"]

/-- A root at `/` whose grandchild at `/a/b` holds the only PUT of the tree. -/
def exampleDeep : Resource Unit Unit String :=
  .mk "/" () none
    [.mk "/a" () none [.mk "/a/b" () none [] [⟨"PUT", "put-b"⟩] []] [⟨"GET", "get-a"⟩] []]
    [⟨"GET", "get-root"⟩] []

/-- A single node at `/a`. -/
def exampleNode : Resource Unit Unit String :=
  .mk "/a" () none [] [] ["x"]

/-! ## Operations, verb helpers and the other calls on a node -/

/-- Modelled from the spec: `newOperation`, which the method `Operation` calls and which is
defined in `operation.go`, a file that is not among the sources.  The specification says
that attaching an operation takes the method string as given and that the rest of the record
(identifier, description, responses) is metadata of that one operation; the three remaining
arguments travel together as `details`. -/
def newOperation (_r : Resource M R D) (method : String) (details : D) : Huma.Operation D :=
  ⟨method, details⟩

/-- The method `Operation` on the node `r`: the node as the call leaves it, and the operation
it returns, which is the last element of `operations`. -/
def Resource.Operation (r : Resource M R D) (method : String) (details : D) :
    Resource M R D × Huma.Operation D :=
  (.mk r.path r.mux r.router r.subResources (r.operations ++ [newOperation r method details])
    r.tags,
   newOperation r method details)

/-- The constant `http.MethodPost`. -/
def MethodPost : String := "POST"

/-- The constant `http.MethodHead`. -/
def MethodHead : String := "HEAD"

/-- The constant `http.MethodGet`. -/
def MethodGet : String := "GET"

/-- The constant `http.MethodPut`. -/
def MethodPut : String := "PUT"

/-- The constant `http.MethodPatch`. -/
def MethodPatch : String := "PATCH"

/-- The constant `http.MethodDelete`. -/
def MethodDelete : String := "DELETE"

/-- The method `Post`. -/
def Resource.Post (r : Resource M R D) (details : D) : Resource M R D × Huma.Operation D :=
  r.Operation MethodPost details

/-- The method `Head`. -/
def Resource.Head (r : Resource M R D) (details : D) : Resource M R D × Huma.Operation D :=
  r.Operation MethodHead details

/-- The method `Get`. -/
def Resource.Get (r : Resource M R D) (details : D) : Resource M R D × Huma.Operation D :=
  r.Operation MethodGet details

/-- The method `Put`. -/
def Resource.Put (r : Resource M R D) (details : D) : Resource M R D × Huma.Operation D :=
  r.Operation MethodPut details

/-- The method `Patch`. -/
def Resource.Patch (r : Resource M R D) (details : D) : Resource M R D × Huma.Operation D :=
  r.Operation MethodPatch details

/-- The method `Delete`. -/
def Resource.Delete (r : Resource M R D) (details : D) : Resource M R D × Huma.Operation D :=
  r.Operation MethodDelete details

/-- The method `AddMiddleware` on the node `r`: the middlewares are handed to the router
behind `r.mux` and no field of the node is assigned; the call returns `r`. -/
def Resource.AddMiddleware (r : Resource M R D) : Resource M R D := r

/-- The call `r.Operation(method, ...)` on the node behind `p`: the tree after the call and the
operation it returns. -/
def callOperation (root : Resource M R D) (p : Ptr) (method : String) (details : D) :
    Resource M R D × Option (Huma.Operation D) :=
  (Resource.update (fun r => (r.Operation method details).1) p root,
   (root.deref p).map (fun r => (r.Operation method details).2))

/-- The call `r.AddTags(names...)` on the node behind `p` with what it returns: the tree after
the call and, from `return r`, the pointer the call was made on. -/
def callAddTagsResult (root : Resource M R D) (p : Ptr) (names : List String) :
    Resource M R D × Ptr :=
  (callAddTags root p names, p)

/-- The call `r.toOpenAPI()` on the node behind `p`: the method assigns nothing in the tree, so
the tree after the call is the tree before it; with it the document returned. -/
def callToOpenAPI (E : Collab M D F) (root : Resource M R D) (p : Ptr) :
    Resource M R D × Option (Container F) :=
  (root, (root.deref p).map (fun r => r.toOpenAPI E))

/-- A call of one of the methods of `resource.go` on the node behind a pointer. -/
inductive Call (D : Type) where
  | SubResource (p : Ptr) (parts : List String) : Call D
  | Operation (p : Ptr) (method : String) (details : D) : Call D
  | Post (p : Ptr) (details : D) : Call D
  | Head (p : Ptr) (details : D) : Call D
  | Get (p : Ptr) (details : D) : Call D
  | Put (p : Ptr) (details : D) : Call D
  | Patch (p : Ptr) (details : D) : Call D
  | Delete (p : Ptr) (details : D) : Call D
  | AddTags (p : Ptr) (names : List String) : Call D
  | AddMiddleware (p : Ptr) : Call D
  | toOpenAPI (p : Ptr) : Call D

/-- The tree after a call. -/
def exec (E : Collab M D F) : Call D → Resource M R D → Resource M R D
  | .SubResource p parts, root => (callSubResource E root p parts).1
  | .Operation p method details, root => (callOperation root p method details).1
  | .Post p details, root => Resource.update (fun r => (r.Post details).1) p root
  | .Head p details, root => Resource.update (fun r => (r.Head details).1) p root
  | .Get p details, root => Resource.update (fun r => (r.Get details).1) p root
  | .Put p details, root => Resource.update (fun r => (r.Put details).1) p root
  | .Patch p details, root => Resource.update (fun r => (r.Patch details).1) p root
  | .Delete p details, root => Resource.update (fun r => (r.Delete details).1) p root
  | .AddTags p names, root => callAddTags root p names
  | .AddMiddleware p, root => Resource.update (fun r => r.AddMiddleware) p root
  | .toOpenAPI p, root => (callToOpenAPI E root p).1

/-- The tree after a sequence of calls, made one after the other. -/
def run (E : Collab M D F) (calls : List (Call D)) (root : Resource M R D) : Resource M R D :=
  calls.foldl (fun t c => exec E c t) root

/-! ## Paths in the tree -/

/-- The string `s` starts with the string `pre`. -/
def StartsWith (s pre : String) : Prop := ∃ rest : String, s = pre ++ rest

mutual
/-- In the whole tree the path of every child starts with the path of its parent. -/
def Resource.PathsNested : Resource M R D → Prop
  | .mk path _ _ subs _ _ => childrenNested path subs
/-- The trees of a list are nested in themselves and their paths start with `path`. -/
def childrenNested (path : String) : List (Resource M R D) → Prop
  | [] => True
  | sub :: rest => (StartsWith sub.path path ∧ sub.PathsNested) ∧ childrenNested path rest
end

/-- The pairs (node path, lowercased method) of all operations of all nodes of a tree. -/
def Resource.pairs (E : Collab M D F) (t : Resource M R D) : List (String × String) :=
  t.nodes.flatMap (fun n => n.operations.map (fun op => (n.path, E.ToLower op.method)))

/-- The node with its child list replaced. -/
def Resource.withSubResources (r : Resource M R D) (subs : List (Resource M R D)) :
    Resource M R D :=
  .mk r.path r.mux r.router subs r.operations r.tags

/-- A tree of three levels in which no two operations share path and lowercased method. -/
def exampleWide : Resource Unit Unit String :=
  .mk "/" () none
    [.mk "/a" () none [.mk "/a/b" () none [] [⟨"PUT", "put-b"⟩] []] [⟨"GET", "get-a"⟩] [],
     .mk "/c" () none [] [⟨"GET", "get-c"⟩, ⟨"POST", "post-c"⟩] []]
    [⟨"GET", "get-root"⟩] []

/-! ## The chi mux behind `mux` -/

/-- What is relied on of the chi mux that `r.mux.Route(uriTemplate, nil)` reaches at line 105:
`refuses mounted pattern` tells whether `Route` panics on a mux on which the patterns
`mounted` were mounted before.  `Mount` panics on a pattern that is mounted already, and a
routing pattern must begin with a slash, so the empty pattern is refused; chi may refuse
other patterns too. -/
structure Chi where
  refuses : List String → String → Bool
  refuses_empty : ∀ mounted : List String, refuses mounted "" = true
  refuses_mounted : ∀ (mounted : List String) (pattern : String),
    pattern ∈ mounted → refuses mounted pattern = true

/-- The state of the program while the tree is built: the tree, and for the mux of every node
the patterns that `Route` has mounted on it, the latest first. -/
structure Built (M R D : Type) where
  root : Resource M R D
  mounts : List (Ptr × String)

/-- The patterns mounted on the mux of the node behind `p`. -/
def Built.mountedOn (s : Built M R D) (p : Ptr) : List String :=
  (s.mounts.filter (fun e => e.1 = p)).map Prod.snd

/-- The call `r.SubResource(parts...)` as the program runs it on the node behind `p`: line 105
calls `Route` before the child is built and appended, so when `Route` panics there is no
child and no result; when it returns, the pattern is mounted and the tree is the one
`callSubResource` describes. -/
def SubResourceOnChi (C : Chi) (E : Collab M D F) (s : Built M R D) (p : Ptr)
    (parts : List String) : Option (Built M R D × Ptr) :=
  match s.root.deref p with
  | none => none
  | some _ =>
      if C.refuses (s.mountedOn p) (uriTemplate parts) = true then none
      else some (⟨(callSubResource E s.root p parts).1, (p, uriTemplate parts) :: s.mounts⟩,
                 (callSubResource E s.root p parts).2)

/-- The state after a call as the program runs it; `none` when the call panics. -/
def execOnChi (C : Chi) (E : Collab M D F) : Call D → Built M R D → Option (Built M R D)
  | .SubResource p parts, s => (SubResourceOnChi C E s p parts).map Prod.fst
  | .Operation p method details, s => some ⟨exec E (.Operation p method details) s.root, s.mounts⟩
  | .Post p details, s => some ⟨exec E (.Post p details) s.root, s.mounts⟩
  | .Head p details, s => some ⟨exec E (.Head p details) s.root, s.mounts⟩
  | .Get p details, s => some ⟨exec E (.Get p details) s.root, s.mounts⟩
  | .Put p details, s => some ⟨exec E (.Put p details) s.root, s.mounts⟩
  | .Patch p details, s => some ⟨exec E (.Patch p details) s.root, s.mounts⟩
  | .Delete p details, s => some ⟨exec E (.Delete p details) s.root, s.mounts⟩
  | .AddTags p names, s => some ⟨exec E (.AddTags p names) s.root, s.mounts⟩
  | .AddMiddleware p, s => some ⟨exec E (.AddMiddleware p) s.root, s.mounts⟩
  | .toOpenAPI p, s => some ⟨exec E (.toOpenAPI p) s.root, s.mounts⟩

/-- The state after a sequence of calls as the program runs it; `none` when one of them
panics. -/
def runOnChi (C : Chi) (E : Collab M D F) : List (Call D) → Built M R D → Option (Built M R D)
  | [], s => some s
  | c :: rest, s => (execOnChi C E c s).bind (runOnChi C E rest)

/-- Every child has the path of its parent followed by a pattern mounted on the mux of the
parent. -/
def Built.ChildrenMounted (s : Built M R D) : Prop :=
  ∀ (q : Ptr) (i : Nat) (n c : Resource M R D),
    s.root.deref q = some n → s.root.deref (q ++ [i]) = some c →
    ∃ t : String, t ∈ s.mountedOn q ∧ c.path = n.path ++ t

/-- Two different children of a node have different paths. -/
def Built.SiblingsDiffer (s : Built M R D) : Prop :=
  ∀ (q : Ptr) (i j : Nat) (ci cj : Resource M R D),
    s.root.deref (q ++ [i]) = some ci → s.root.deref (q ++ [j]) = some cj →
    i ≠ j → ci.path ≠ cj.path

/-- A chi mux that refuses the empty pattern and the patterns mounted already, and no
other. -/
def exampleChi : Chi where
  refuses := fun mounted pattern => decide (pattern = "") || mounted.contains pattern
  refuses_empty := by
    intro mounted
    simp
  refuses_mounted := by
    intro mounted pattern h
    simp [h]

/-- The node at `/a` after `SubResource("id")`, `SubResource("/x")`, `Post` on the first child
and `SubResource("id")` on the first child, with the patterns mounted on the way. -/
def exampleBuilt : Built Unit Unit String :=
  ⟨run exampleCollab
    [Call.SubResource [] ["id"], Call.SubResource [] ["/x"], Call.Post [0] "create",
     Call.SubResource [0] ["id"]] exampleNode,
   [([0], "/\x7bid\x7d"), ([], "/x"), ([], "/\x7bid\x7d")]⟩
/-! ## Theorems: path composition -/

theorem utf8ByteSize_eq_zero_iff (s : String) : s.utf8ByteSize = 0 ↔ s = "" := by
  cases s with
  | mk cs =>
    cases cs with
    | nil => simp [String.utf8ByteSize, String.utf8ByteSize.go]
    | cons c cs =>
      have hc := Char.utf8Size_pos c
      have hne : String.mk (c :: cs) ≠ "" := by
        intro h
        have := congrArg String.data h
        simp at this
      simp only [String.utf8ByteSize, String.utf8ByteSize.go, hne, iff_false]
      omega

theorem get_zero_eq_head (s : String) (h : s ≠ "") : some (s.get 0) = s.data.head? := by
  cases s with
  | mk cs =>
    cases cs with
    | nil => exact absurd rfl h
    | cons c cs => simp [String.get, String.utf8GetAux]

theorem appendPart_empty (acc : String) : appendPart acc "" = acc := by
  simp [appendPart, String.utf8ByteSize, String.utf8ByteSize.go]

theorem appendPart_of_ne (acc part : String) (h : part ≠ "") :
    appendPart acc part = acc ++ specSegment part := by
  have h0 : ¬ part.utf8ByteSize = 0 := fun h1 => h ((utf8ByteSize_eq_zero_iff part).1 h1)
  have hg := get_zero_eq_head part h
  unfold appendPart specSegment
  rw [if_neg h0]
  by_cases hs : part.get 0 = '/'
  · have : part.data.head? = some '/' := by rw [← hg, hs]
    rw [if_pos hs, if_pos this]
  · have : ¬ part.data.head? = some '/' := by
      rw [← hg]
      intro h1
      exact hs (Option.some.inj h1)
    rw [if_neg hs, if_neg this]

theorem join_cons (s : String) (ss : List String) : String.join (s :: ss) = s ++ String.join ss := by
  apply String.ext
  simp [String.data_join, String.data_append]

theorem foldl_appendPart (parts : List String) (acc : String) :
    parts.foldl appendPart acc = acc ++ specSuffix parts := by
  induction parts generalizing acc with
  | nil => simp [specSuffix, String.join]
  | cons part rest ih =>
    rw [List.foldl_cons, ih]
    by_cases h : part = ""
    · subst h
      rw [appendPart_empty]
      simp [specSuffix]
    · rw [appendPart_of_ne acc part h, String.append_assoc]
      congr 1
      simp only [specSuffix]
      rw [List.filter_cons_of_pos (by simpa using h), List.map_cons, join_cons]

theorem uriTemplate_eq_specSuffix (parts : List String) : uriTemplate parts = specSuffix parts := by
  unfold uriTemplate
  rw [foldl_appendPart, String.empty_append]

theorem specSuffix_filter (parts : List String) :
    specSuffix (parts.filter (fun part => part ≠ "")) = specSuffix parts := by
  simp [specSuffix, List.filter_filter]

theorem specSuffix_all_empty (parts : List String) (h : ∀ part ∈ parts, part = "") :
    specSuffix parts = "" := by
  have : parts.filter (fun part => part ≠ "") = [] := by
    rw [List.filter_eq_nil_iff]
    intro part hp
    simpa using h part hp
  unfold specSuffix
  rw [this]
  rfl

/-- C1: the child returned by `SubResource` has the parent's path followed by one segment per
non-empty part, in input order: the part itself when it starts with a slash, the part in
braces behind a slash otherwise.  On a parent at `/a`, the parts `id`, then `/b`, then `/b`
with `id` give `/a/{id}`, `/a/b` and `/a/b/{id}`. -/
theorem SubResource_path :
    (∀ (E : Collab M D F) (r : Resource M R D) (parts : List String),
      (r.SubResource E parts).2.path = r.path ++ specSuffix parts) ∧
    (∀ (E : Collab M D F) (r : Resource M R D), r.path = "/a" →
      (r.SubResource E ["id"]).2.path = "/a/\x7bid\x7d" ∧
      (r.SubResource E ["/b"]).2.path = "/a/b" ∧
      (r.SubResource E ["/b", "id"]).2.path = "/a/b/\x7bid\x7d") := by
  have key : ∀ (E : Collab M D F) (r : Resource M R D) (parts : List String),
      (r.SubResource E parts).2.path = r.path ++ specSuffix parts := by
    intro E r parts
    simp [Resource.SubResource, newSubResource, Resource.path, uriTemplate_eq_specSuffix]
  refine ⟨key, ?_⟩
  intro E r hr
  rw [key, key, key, hr]
  refine ⟨?_, ?_, ?_⟩ <;> decide

/-! ## Theorems: maps and containers -/

theorem mapGet_mapPut {V : Type} (m : GoMap V) (k k1 : String) (v : V) :
    mapGet (mapPut m k v) k1 = if k = k1 then some v else mapGet m k1 := by
  induction m with
  | nil => simp [mapPut, mapGet]
  | cons e rest ih =>
    obtain ⟨k0, v0⟩ := e
    by_cases h : k0 = k
    · subst h
      by_cases h1 : k0 = k1 <;> simp [mapPut, mapGet, h1]
    · by_cases h1 : k0 = k1
      · subst h1
        have h2 : ¬ k = k0 := fun h3 => h h3.symm
        simp [mapPut, mapGet, h, h2]
      · simp [mapPut, mapGet, h, h1, ih]

theorem mapGet_eq_none_iff {V : Type} (m : GoMap V) (k : String) :
    mapGet m k = none ↔ k ∉ mapKeys m := by
  induction m with
  | nil => simp [mapGet, mapKeys]
  | cons e rest ih =>
    obtain ⟨k0, v0⟩ := e
    by_cases h : k0 = k
    · simp [mapGet, mapKeys, h]
    · have h2 : ¬ k = k0 := fun h3 => h h3.symm
      simp only [mapGet, if_neg h, ih]
      simp [mapKeys, h2]

theorem mapGet_mem {V : Type} (m : GoMap V) (k : String) (v : V) (h : mapGet m k = some v) :
    (k, v) ∈ m := by
  induction m with
  | nil => simp [mapGet] at h
  | cons e rest ih =>
    obtain ⟨k0, v0⟩ := e
    by_cases h0 : k0 = k
    · simp only [mapGet, if_pos h0, Option.some.injEq] at h
      simp [h0, h]
    · simp only [mapGet, if_neg h0] at h
      exact List.mem_cons_of_mem _ (ih h)

theorem mapGet_of_mem {V : Type} (m : GoMap V) (k : String) (v : V) (hn : (mapKeys m).Nodup)
    (h : (k, v) ∈ m) : mapGet m k = some v := by
  induction m with
  | nil => simp at h
  | cons e rest ih =>
    obtain ⟨k0, v0⟩ := e
    simp only [mapKeys, List.map_cons, List.nodup_cons] at hn
    rcases List.mem_cons.1 h with h1 | h1
    · cases h1
      simp [mapGet]
    · have hk : k ∈ rest.map Prod.fst := List.mem_map.2 ⟨(k, v), h1, rfl⟩
      have h0 : ¬ k0 = k := fun h2 => hn.1 (h2 ▸ hk)
      simp only [mapGet, if_neg h0]
      exact ih hn.2 h1

theorem mem_mapPut {V : Type} (m : GoMap V) (k : String) (v : V) (e : String × V)
    (h : e ∈ mapPut m k v) : e = (k, v) ∨ e ∈ m := by
  induction m with
  | nil => simpa [mapPut] using h
  | cons e0 rest ih =>
    obtain ⟨k0, v0⟩ := e0
    by_cases h0 : k0 = k
    · simp only [mapPut, if_pos h0, List.mem_cons] at h
      rcases h with h | h
      · exact Or.inl h
      · exact Or.inr (List.mem_cons_of_mem _ h)
    · simp only [mapPut, if_neg h0, List.mem_cons] at h
      rcases h with h | h
      · exact Or.inr (h ▸ List.mem_cons_self _ _)
      · rcases ih h with h1 | h1
        · exact Or.inl h1
        · exact Or.inr (List.mem_cons_of_mem _ h1)

theorem mem_mapKeys_mapPut {V : Type} (m : GoMap V) (k k1 : String) (v : V) :
    k1 ∈ mapKeys (mapPut m k v) ↔ k1 = k ∨ k1 ∈ mapKeys m := by
  have h1 := mapGet_eq_none_iff (mapPut m k v) k1
  have h2 := mapGet_eq_none_iff m k1
  rw [mapGet_mapPut] at h1
  by_cases hk : k = k1
  · simp only [if_pos hk] at h1
    have : k1 ∈ mapKeys (mapPut m k v) := by
      by_contra hc
      exact absurd (h1.2 hc) (by simp)
    exact ⟨fun _ => Or.inl hk.symm, fun _ => this⟩
  · simp only [if_neg hk] at h1
    have hk1 : ¬ k1 = k := fun h => hk h.symm
    constructor
    · intro h
      right
      by_contra hc
      exact (h1.1 (h2.2 hc)) h
    · rintro (h | h)
      · exact absurd h hk1
      · by_contra hc
        exact (h2.1 (h1.2 hc)) h

theorem nodup_mapKeys_mapPut {V : Type} (m : GoMap V) (k : String) (v : V)
    (h : (mapKeys m).Nodup) : (mapKeys (mapPut m k v)).Nodup := by
  induction m with
  | nil => simp [mapPut, mapKeys]
  | cons e rest ih =>
    obtain ⟨k0, v0⟩ := e
    have h0 : k0 ∉ mapKeys rest ∧ (mapKeys rest).Nodup := by
      simpa [mapKeys] using h
    by_cases hk : k0 = k
    · subst hk
      simpa [mapPut, mapKeys] using h
    · have : k0 ∉ mapKeys (mapPut rest k v) := by
        rw [mem_mapKeys_mapPut]
        rintro (h1 | h1)
        · exact hk h1
        · exact h0.1 h1
      have h3 : (mapKeys (mapPut rest k v)).Nodup := ih h0.2
      have h4 : mapKeys (mapPut ((k0, v0) :: rest) k v) = k0 :: mapKeys (mapPut rest k v) := by
        simp [mapPut, mapKeys, hk]
      rw [h4]
      exact List.nodup_cons.2 ⟨this, h3⟩

theorem mapPut_ne_nil {V : Type} (m : GoMap V) (k : String) (v : V) : mapPut m k v ≠ [] := by
  cases m with
  | nil => simp [mapPut]
  | cons e rest =>
    obtain ⟨k0, v0⟩ := e
    by_cases hk : k0 = k <;> simp [mapPut, hk]

theorem WF_New : (Container.New : Container F).WF := by
  simp [Container.WF, Container.New, mapKeys]

theorem WF_mapPut (doc : Container F) (path : String) (methods : GoMap (Value F))
    (h : doc.WF) (hm : (mapKeys methods).Nodup) (hne : methods ≠ []) :
    Container.WF (mapPut doc path methods) := by
  refine ⟨nodup_mapKeys_mapPut doc path methods h.1, ?_⟩
  intro e he
  rcases mem_mapPut doc path methods e he with h1 | h1
  · subst h1
    exact ⟨hm, hne⟩
  · exact h.2 e h1

theorem WF_methods (doc : Container F) (path : String) (methods : GoMap (Value F))
    (h : doc.WF) (hg : mapGet doc path = some methods) :
    (mapKeys methods).Nodup ∧ methods ≠ [] :=
  h.2 (path, methods) (mapGet_mem doc path methods hg)

theorem WF_Set (doc : Container F) (value : Value F) (path method : String) (h : doc.WF) :
    (Container.Set doc value path method).WF := by
  unfold Container.Set
  cases hg : mapGet doc path with
  | none =>
    exact WF_mapPut doc path _ h (nodup_mapKeys_mapPut [] method value (by simp [mapKeys]))
      (mapPut_ne_nil _ _ _)
  | some methods =>
    exact WF_mapPut doc path _ h
      (nodup_mapKeys_mapPut methods method value (WF_methods doc path methods h hg).1)
      (mapPut_ne_nil _ _ _)

theorem Search_Set (doc : Container F) (value : Value F) (path method p m : String) :
    Container.Search (Container.Set doc value path method) p m
      = if path = p ∧ method = m then some value else Container.Search doc p m := by
  unfold Container.Set Container.Search
  cases hg : mapGet doc path with
  | none =>
    simp only [mapGet_mapPut]
    by_cases hp : path = p
    · subst hp
      by_cases hm : method = m <;> simp [mapGet_mapPut, mapGet, hm, hg]
    · simp [hp]
  | some methods =>
    simp only [mapGet_mapPut]
    by_cases hp : path = p
    · subst hp
      by_cases hm : method = m <;> simp [mapGet_mapPut, hm, hg]
    · simp [hp]

/-! ## Theorems: merging containers -/

theorem mergeAt_none_right (c : Value F → Value F → Value F) (x : Option (Value F)) :
    mergeAt c x none = x := by
  cases x <;> rfl

theorem mergeMethods_cons (c : Value F → Value F → Value F) (path method : String)
    (value : Value F) (rest : GoMap (Value F)) (g : Container F) :
    Container.mergeMethods c path ((method, value) :: rest) g
      = Container.mergeMethods c path rest
          (Container.Set g ((mergeAt c (Container.Search g path method) (some value)).getD value)
            path method) := by
  rw [Container.mergeMethods]
  cases Container.Search g path method <;> rfl

theorem WF_mergeMethods (c : Value F → Value F → Value F) (path : String)
    (methods : GoMap (Value F)) (g : Container F) (h : g.WF) :
    (Container.mergeMethods c path methods g).WF := by
  induction methods generalizing g with
  | nil => simpa [Container.mergeMethods] using h
  | cons e rest ih =>
    obtain ⟨m0, v0⟩ := e
    rw [mergeMethods_cons]
    exact ih _ (WF_Set g _ path m0 h)

theorem Search_mergeMethods (c : Value F → Value F → Value F) (path : String)
    (methods : GoMap (Value F)) (g : Container F) (hn : (mapKeys methods).Nodup)
    (p m : String) :
    Container.Search (Container.mergeMethods c path methods g) p m
      = if path = p then mergeAt c (Container.Search g p m) (mapGet methods m)
        else Container.Search g p m := by
  induction methods generalizing g with
  | nil =>
    simp [Container.mergeMethods, mapGet, mergeAt_none_right]
  | cons e rest ih =>
    obtain ⟨m0, v0⟩ := e
    have h0 : m0 ∉ mapKeys rest ∧ (mapKeys rest).Nodup := by
      simpa [mapKeys] using hn
    rw [mergeMethods_cons, ih _ h0.2, Search_Set]
    by_cases hp : path = p
    · subst hp
      by_cases hm : m0 = m
      · subst hm
        have hr : mapGet rest m0 = none := (mapGet_eq_none_iff rest m0).2 h0.1
        simp only [true_and, if_true, hr, mergeAt_none_right, mapGet]
        cases Container.Search g path m0 <;> rfl
      · simp [hm, mapGet]
    · simp [hp]

theorem WF_MergeFn (c : Value F → Value F → Value F) (g source : Container F)
    (h : g.WF) (hs : source.WF) : (Container.MergeFn c g source).WF := by
  induction source generalizing g with
  | nil => simpa [Container.MergeFn] using h
  | cons e rest ih =>
    obtain ⟨p0, methods⟩ := e
    have hrest : Container.WF rest := by
      refine ⟨?_, fun e he => hs.2 e (List.mem_cons_of_mem _ he)⟩
      have := hs.1
      simp only [mapKeys, List.map_cons, List.nodup_cons] at this
      exact this.2
    have hm := hs.2 (p0, methods) (List.mem_cons_self _ _)
    rw [Container.MergeFn]
    cases hg : mapGet g p0 with
    | some existing => exact ih _ (WF_mergeMethods c p0 methods g h) hrest
    | none => exact ih _ (WF_mapPut g p0 methods h hm.1 hm.2) hrest

theorem Search_MergeFn (c : Value F → Value F → Value F) (g source : Container F)
    (hs : source.WF) (p m : String) :
    Container.Search (Container.MergeFn c g source) p m
      = mergeAt c (Container.Search g p m) (Container.Search source p m) := by
  induction source generalizing g with
  | nil =>
    simp [Container.MergeFn, Container.Search, mapGet, mergeAt_none_right]
  | cons e rest ih =>
    obtain ⟨p0, methods⟩ := e
    have hk : p0 ∉ mapKeys rest ∧ (mapKeys rest).Nodup := by
      simpa [mapKeys] using hs.1
    have hrest : Container.WF rest :=
      ⟨hk.2, fun e he => hs.2 e (List.mem_cons_of_mem _ he)⟩
    have hm := hs.2 (p0, methods) (List.mem_cons_self _ _)
    have hsrc : Container.Search ((p0, methods) :: rest) p m
        = if p0 = p then mapGet methods m else Container.Search rest p m := by
      by_cases hp : p0 = p <;> simp [Container.Search, mapGet, hp]
    have hnone : p0 = p → Container.Search rest p m = none := by
      intro hp
      have : mapGet rest p = none := (mapGet_eq_none_iff rest p).2 (hp ▸ hk.1)
      simp [Container.Search, this]
    rw [Container.MergeFn, hsrc]
    cases hg : mapGet g p0 with
    | some existing =>
      simp only []
      rw [ih _ hrest, Search_mergeMethods c p0 methods g hm.1]
      by_cases hp : p0 = p
      · simp only [if_pos hp, hnone hp, mergeAt_none_right]
      · simp only [if_neg hp]
    | none =>
      simp only []
      rw [ih _ hrest]
      have hput : Container.Search (mapPut g p0 methods) p m
          = if p0 = p then mapGet methods m else Container.Search g p m := by
        by_cases hp : p0 = p <;> simp [Container.Search, mapGet_mapPut, hp]
      rw [hput]
      by_cases hp : p0 = p
      · have hgs : Container.Search g p m = none := by
          simp [Container.Search, ← hp, hg]
        simp only [if_pos hp, hnone hp, mergeAt_none_right, hgs]
        rfl
      · simp only [if_neg hp]

theorem WF_Merge (g source : Container F) (h : g.WF) (hs : source.WF) :
    (Container.Merge g source).WF :=
  WF_MergeFn _ g source h hs

theorem Search_Merge (g source : Container F) (hs : source.WF) (p m : String) :
    Container.Search (Container.Merge g source) p m
      = mergeAt Container.collide (Container.Search g p m) (Container.Search source p m) :=
  Search_MergeFn _ g source hs p m

/-! ## Theorems: the compiler -/

theorem Resource.induct {P : Resource M R D → Prop}
    (h : ∀ p m ro subs ops tags, (∀ s ∈ subs, P s) → P (.mk p m ro subs ops tags)) :
    ∀ r, P r := by
  intro r
  refine @Resource.rec M R D P (fun l => ∀ s ∈ l, P s) ?_ ?_ ?_ r
  · intro p m ro subs ops tags ih
    exact h p m ro subs ops tags ih
  · intro s hs
    exact absurd hs (List.not_mem_nil s)
  · intro head tail ih1 ih2 s hs
    rcases List.mem_cons.1 hs with h1 | h1
    · exact h1 ▸ ih1
    · exact ih2 s h1

theorem nodesOfList_eq (subs : List (Resource M R D)) :
    nodesOfList subs = subs.flatMap Resource.nodes := by
  induction subs with
  | nil => simp [nodesOfList]
  | cons sub rest ih => simp [nodesOfList, ih]

theorem nodes_mk (p : String) (m : M) (ro : Option R) (subs : List (Resource M R D))
    (ops : List (Operation D)) (tags : List String) :
    (Resource.mk p m ro subs ops tags).nodes
      = Resource.mk p m ro subs ops tags :: subs.flatMap Resource.nodes := by
  rw [Resource.nodes, nodesOfList_eq]

theorem resolving_mk (E : Collab M D F) (pa me : String) (p : String) (m : M) (ro : Option R)
    (subs : List (Resource M R D)) (ops : List (Operation D)) (tags : List String) :
    (Resource.mk p m ro subs ops tags).resolving E pa me
      = opsResolving E p pa me ops ++ subs.flatMap (Resource.resolving E pa me) := by
  unfold Resource.resolving
  rw [nodes_mk, List.flatMap_cons]
  congr 1
  induction subs with
  | nil => simp
  | cons sub rest ih =>
    simp only [List.flatMap_cons, List.flatMap_append]
    rw [ih]

theorem WF_setOperations (E : Collab M D F) (path : String) (ops : List (Operation D))
    (doc : Container F) (h : doc.WF) : (setOperations E path ops doc).WF := by
  induction ops generalizing doc with
  | nil => simpa [setOperations] using h
  | cons op rest ih =>
    rw [setOperations]
    exact ih _ (WF_Set doc _ path _ h)

theorem Search_setOperations (E : Collab M D F) (path : String) (ops : List (Operation D))
    (doc : Container F) (p m : String) :
    Container.Search (setOperations E path ops doc) p m
      = match (opsResolving E path p m ops).getLast? with
        | some op => some (Value.fragment (E.opToOpenAPI op))
        | none => Container.Search doc p m := by
  induction ops generalizing doc with
  | nil => simp [setOperations, opsResolving]
  | cons op rest ih =>
    rw [setOperations, ih, Search_Set]
    by_cases hp : path = p
    · subst hp
      by_cases hm : E.ToLower op.method = m
      · have : opsResolving E path path m (op :: rest)
            = op :: opsResolving E path path m rest := by
          simp [opsResolving, hm]
        rw [this, List.getLast?_cons]
        cases (opsResolving E path path m rest).getLast? <;> simp [hm]
      · have : opsResolving E path path m (op :: rest) = opsResolving E path path m rest := by
          simp [opsResolving, hm]
        rw [this]
        simp [hm]
    · have : ∀ l, opsResolving E path p m l = [] := by
        intro l
        simp [opsResolving, hp]
      rw [this, this]
      simp [hp]

theorem WF_mergeSubResources (E : Collab M D F) (subs : List (Resource M R D))
    (doc : Container F) (h : doc.WF) (hs : ∀ s ∈ subs, (s.toOpenAPI E).WF) :
    (mergeSubResources E subs doc).WF := by
  induction subs generalizing doc with
  | nil => simpa [mergeSubResources] using h
  | cons sub rest ih =>
    rw [mergeSubResources]
    exact ih _ (WF_Merge doc _ h (hs sub (List.mem_cons_self _ _)))
      (fun s hm => hs s (List.mem_cons_of_mem _ hm))

theorem WF_toOpenAPI (E : Collab M D F) (r : Resource M R D) : (r.toOpenAPI E).WF := by
  induction r using Resource.induct with
  | h p m ro subs ops tags ih =>
    rw [Resource.toOpenAPI]
    exact WF_setOperations E p ops _ (WF_mergeSubResources E subs _ WF_New ih)

theorem Search_mergeSubResources (E : Collab M D F) (subs : List (Resource M R D))
    (doc : Container F) (p m : String) :
    Container.Search (mergeSubResources E subs doc) p m
      = (subs.map (fun sub => Container.Search (sub.toOpenAPI E) p m)).foldl
          (mergeAt Container.collide) (Container.Search doc p m) := by
  induction subs generalizing doc with
  | nil => simp [mergeSubResources]
  | cons sub rest ih =>
    rw [mergeSubResources, ih, Search_Merge _ _ (WF_toOpenAPI E sub)]
    simp

theorem Search_toOpenAPI (E : Collab M D F) (r : Resource M R D) (p m : String) :
    Container.Search (r.toOpenAPI E) p m
      = match (r.ownResolving E p m).getLast? with
        | some op => some (Value.fragment (E.opToOpenAPI op))
        | none => mergedChildren E p m r.subResources := by
  cases r with
  | mk path mux ro subs ops tags =>
    rw [Resource.toOpenAPI, Search_setOperations, Search_mergeSubResources]
    rfl

theorem foldl_mergeAt_eq_none_iff (c : Value F → Value F → Value F)
    (xs : List (Option (Value F))) (a : Option (Value F)) :
    xs.foldl (mergeAt c) a = none ↔ a = none ∧ ∀ x ∈ xs, x = none := by
  induction xs generalizing a with
  | nil => simp
  | cons x rest ih =>
    rw [List.foldl_cons, ih]
    cases a <;> cases x <;> simp [mergeAt]

theorem collide_fragments (d s : Value F) :
    Container.collide d s = Value.array (d.fragments ++ s.fragments) := by
  cases d <;> cases s <;> rfl

theorem foldl_mergeAt_some (xs : List (Option (Value F))) (a : Value F) :
    xs.foldl (mergeAt Container.collide) (some a)
      = match xs.reduceOption with
        | [] => some a
        | v :: vs => some (Value.array (a.fragments ++ (v :: vs).flatMap Value.fragments)) := by
  induction xs generalizing a with
  | nil => simp [List.reduceOption]
  | cons x rest ih =>
    cases x with
    | none =>
      rw [List.foldl_cons, List.reduceOption_cons_of_none]
      exact ih a
    | some b =>
      rw [List.foldl_cons, List.reduceOption_cons_of_some]
      simp only [mergeAt]
      rw [ih, collide_fragments]
      cases rest.reduceOption <;> simp [Value.fragments]

theorem foldl_mergeAt_none (xs : List (Option (Value F))) :
    xs.foldl (mergeAt Container.collide) none
      = match xs.reduceOption with
        | [] => none
        | [v] => some v
        | v :: w :: vs => some (Value.array ((v :: w :: vs).flatMap Value.fragments)) := by
  induction xs with
  | nil => simp [List.reduceOption]
  | cons x rest ih =>
    cases x with
    | none =>
      rw [List.foldl_cons, List.reduceOption_cons_of_none]
      exact ih
    | some b =>
      rw [List.foldl_cons, List.reduceOption_cons_of_some]
      simp only [mergeAt]
      rw [foldl_mergeAt_some]
      cases rest.reduceOption <;> simp

theorem mergedChildren_eq (E : Collab M D F) (p m : String) (r : Resource M R D) :
    mergedChildren E p m r.subResources
      = match childEntries E p m r with
        | [] => none
        | [v] => some v
        | v :: w :: vs => some (Value.array ((v :: w :: vs).flatMap Value.fragments)) := by
  unfold mergedChildren childEntries
  rw [foldl_mergeAt_none, List.reduceOption, List.filterMap_map]
  rfl

theorem Search_eq_none_iff (E : Collab M D F) (t : Resource M R D) (p m : String) :
    Container.Search (t.toOpenAPI E) p m = none ↔ t.resolving E p m = [] := by
  induction t using Resource.induct with
  | h path mux ro subs ops tags ih =>
    rw [Search_toOpenAPI, resolving_mk]
    have hown : (Resource.mk path mux ro subs ops tags).ownResolving E p m
        = opsResolving E path p m ops := rfl
    rw [hown]
    cases hl : (opsResolving E path p m ops).getLast? with
    | some op =>
      have hne : opsResolving E path p m ops ≠ [] := by
        intro h0
        rw [h0] at hl
        simp at hl
      simp [hne]
    | none =>
      have h0 : opsResolving E path p m ops = [] := List.getLast?_eq_none_iff.1 hl
      simp only [h0, List.nil_append, List.flatMap_eq_nil_iff]
      show mergedChildren E p m subs = none ↔ _
      unfold mergedChildren
      rw [foldl_mergeAt_eq_none_iff]
      simp only [true_and, List.mem_map, forall_exists_index, and_imp,
        forall_apply_eq_imp_iff₂]
      exact ⟨fun h s hs => (ih s hs).1 (h s hs), fun h s hs => (ih s hs).2 (h s hs)⟩

theorem mem_resolving_iff (E : Collab M D F) (t : Resource M R D) (p m : String)
    (op : Operation D) :
    op ∈ t.resolving E p m
      ↔ ∃ n ∈ t.nodes, n.path = p ∧ op ∈ n.operations ∧ E.ToLower op.method = m := by
  unfold Resource.resolving Resource.ownResolving opsResolving
  rw [List.mem_flatMap]
  constructor
  · rintro ⟨n, hn, hop⟩
    by_cases hp : n.path = p
    · rw [if_pos hp] at hop
      have := List.mem_filter.1 hop
      exact ⟨n, hn, hp, this.1, by simpa using this.2⟩
    · rw [if_neg hp] at hop
      exact absurd hop (List.not_mem_nil _)
  · rintro ⟨n, hn, hp, hop, hm⟩
    refine ⟨n, hn, ?_⟩
    rw [if_pos hp]
    exact List.mem_filter.2 ⟨hop, by simpa using hm⟩

theorem mem_methods_iff (doc : Container F) (p m : String) :
    m ∈ doc.methods p ↔ Container.Search doc p m ≠ none := by
  unfold Container.methods Container.Search
  cases hg : mapGet doc p with
  | none => simp
  | some methods =>
    simp only [Option.some_bind]
    have := mapGet_eq_none_iff methods m
    constructor
    · intro h hc
      exact (this.1 hc) h
    · intro h
      by_contra hc
      exact h (this.2 hc)

theorem mem_paths_iff (doc : Container F) (h : doc.WF) (p : String) :
    p ∈ doc.paths ↔ ∃ m, m ∈ doc.methods p := by
  unfold Container.paths Container.methods
  cases hg : mapGet doc p with
  | none =>
    have := (mapGet_eq_none_iff doc p).1 hg
    simp [this]
  | some methods =>
    have hin : p ∈ mapKeys doc := by
      by_contra hc
      rw [(mapGet_eq_none_iff doc p).2 hc] at hg
      exact absurd hg (by simp)
    have hne := (WF_methods doc p methods h hg).2
    cases methods with
    | nil => exact absurd rfl hne
    | cons e rest => exact ⟨fun _ => ⟨e.1, by simp [mapKeys]⟩, fun _ => hin⟩

/-! ## Theorems: what the compiled document holds -/

theorem mem_nodes_self (t : Resource M R D) : t ∈ t.nodes := by
  cases t with
  | mk p m ro subs ops tags =>
    rw [nodes_mk]
    exact List.mem_cons_self _ _

theorem mem_nodes_of_child (p : String) (m : M) (ro : Option R) (subs : List (Resource M R D))
    (ops : List (Operation D)) (tags : List String) (s n : Resource M R D)
    (hs : s ∈ subs) (hn : n ∈ s.nodes) : n ∈ (Resource.mk p m ro subs ops tags).nodes := by
  rw [nodes_mk]
  exact List.mem_cons_of_mem _ (List.mem_flatMap.2 ⟨s, hs, hn⟩)

theorem mem_methods_iff_nodes (E : Collab M D F) (t : Resource M R D) (p m : String) :
    m ∈ (t.toOpenAPI E).methods p
      ↔ ∃ n ∈ t.nodes, n.path = p ∧ ∃ op ∈ n.operations, E.ToLower op.method = m := by
  rw [mem_methods_iff, Ne, Search_eq_none_iff]
  constructor
  · intro h
    obtain ⟨op, hop⟩ := List.exists_mem_of_ne_nil _ h
    obtain ⟨n, hn, hp, ho, hm⟩ := (mem_resolving_iff E t p m op).1 hop
    exact ⟨n, hn, hp, op, ho, hm⟩
  · rintro ⟨n, hn, hp, op, ho, hm⟩
    exact List.ne_nil_of_mem ((mem_resolving_iff E t p m op).2 ⟨n, hn, hp, ho, hm⟩)

theorem childEntries_of_single (E : Collab M D F) (p m : String) (op : Operation D)
    (subs : List (Resource M R D))
    (ih : ∀ s ∈ subs, ∀ o, s.resolving E p m = [o] →
      Container.Search (s.toOpenAPI E) p m = some (Value.fragment (E.opToOpenAPI o)))
    (h : subs.flatMap (Resource.resolving E p m) = [op]) :
    subs.filterMap (fun sub => Container.Search (sub.toOpenAPI E) p m)
      = [Value.fragment (E.opToOpenAPI op)] := by
  induction subs with
  | nil => simp at h
  | cons s rest ihr =>
    rw [List.flatMap_cons] at h
    cases hs : s.resolving E p m with
    | nil =>
      rw [hs, List.nil_append] at h
      have hnone : Container.Search (s.toOpenAPI E) p m = none :=
        (Search_eq_none_iff E s p m).2 hs
      simp only [List.filterMap_cons, hnone]
      exact ihr (fun s1 h1 => ih s1 (List.mem_cons_of_mem _ h1)) h
    | cons x xs =>
      rw [hs] at h
      have hx : x = op ∧ xs ++ rest.flatMap (Resource.resolving E p m) = [] := by
        simpa using h
      have hxs : xs = [] ∧ rest.flatMap (Resource.resolving E p m) = [] := by
        simpa using hx.2
      have hsome : Container.Search (s.toOpenAPI E) p m
          = some (Value.fragment (E.opToOpenAPI op)) := by
        apply ih s (List.mem_cons_self _ _)
        rw [hs, hx.1, hxs.1]
      simp only [List.filterMap_cons, hsome]
      have hrest : rest.filterMap (fun sub => Container.Search (sub.toOpenAPI E) p m) = [] := by
        rw [List.filterMap_eq_nil_iff]
        intro s1 h1
        exact (Search_eq_none_iff E s1 p m).2 (List.flatMap_eq_nil_iff.1 hxs.2 s1 h1)
      rw [hrest]

theorem Search_of_resolving_single (E : Collab M D F) (t : Resource M R D) (p m : String) :
    ∀ op, t.resolving E p m = [op] →
      Container.Search (t.toOpenAPI E) p m = some (Value.fragment (E.opToOpenAPI op)) := by
  induction t using Resource.induct with
  | h path mux ro subs ops tags ih =>
    intro op h
    rw [resolving_mk] at h
    rw [Search_toOpenAPI]
    have hown : (Resource.mk path mux ro subs ops tags).ownResolving E p m
        = opsResolving E path p m ops := rfl
    rw [hown]
    cases hl : opsResolving E path p m ops with
    | nil =>
      rw [hl, List.nil_append] at h
      simp only [List.getLast?_nil]
      rw [mergedChildren_eq]
      have : childEntries E p m (Resource.mk path mux ro subs ops tags)
          = [Value.fragment (E.opToOpenAPI op)] :=
        childEntries_of_single E p m op subs ih h
      rw [this]
    | cons x xs =>
      rw [hl] at h
      have hx : x = op ∧ xs ++ subs.flatMap (Resource.resolving E p m) = [] := by
        simpa using h
      have hxs : xs = [] ∧ subs.flatMap (Resource.resolving E p m) = [] := by
        simpa using hx.2
      rw [hx.1, hxs.1]
      rfl

theorem Merge_nil (g : Container F) : Container.Merge g [] = g := by
  simp [Container.Merge, Container.MergeFn]

theorem mergeSubResources_of_empty (E : Collab M D F) (subs : List (Resource M R D))
    (doc : Container F) (h : ∀ s ∈ subs, s.toOpenAPI E = Container.New) :
    mergeSubResources E subs doc = doc := by
  induction subs generalizing doc with
  | nil => rfl
  | cons s rest ih =>
    rw [mergeSubResources, h s (List.mem_cons_self _ _)]
    have : Container.Merge doc (Container.New : Container F) = doc := Merge_nil doc
    rw [this]
    exact ih doc (fun s1 h1 => h s1 (List.mem_cons_of_mem _ h1))

theorem toOpenAPI_eq_New (E : Collab M D F) (t : Resource M R D) :
    (∀ n ∈ t.nodes, n.operations = []) → t.toOpenAPI E = Container.New := by
  induction t using Resource.induct with
  | h path mux ro subs ops tags ih =>
    intro h
    have hops : ops = [] := h _ (mem_nodes_self _)
    have hsubs : ∀ s ∈ subs, s.toOpenAPI E = Container.New := by
      intro s hs
      exact ih s hs (fun n hn => h n (mem_nodes_of_child path mux ro subs ops tags s n hs hn))
    rw [Resource.toOpenAPI, mergeSubResources_of_empty E subs _ hsubs, hops]
    rfl

/-- C2: the compiled document has a method key `m` under a path key `p` exactly when some node
of the tree has path `p` and an operation whose lowercased method is `m`; every path key has
at least one method key, so there are no other keys at either level.  For a root at `/` with
one GET and a child at `/items` with one POST the path keys are `/` and `/items`, with the
method keys `get` and `post`. -/
theorem toOpenAPI_keys :
    (∀ (E : Collab M D F) (t : Resource M R D) (p m : String),
      (p ∈ (t.toOpenAPI E).paths ∧ m ∈ (t.toOpenAPI E).methods p)
        ↔ ∃ n ∈ t.nodes, n.path = p ∧ ∃ op ∈ n.operations, E.ToLower op.method = m) ∧
    (∀ (E : Collab M D F) (t : Resource M R D) (p : String),
      p ∈ (t.toOpenAPI E).paths → ∃ m, m ∈ (t.toOpenAPI E).methods p) ∧
    (∀ (E : Collab M D F) (mux1 mux2 : M) (ro1 ro2 : Option R) (tags1 tags2 : List String)
      (get post : Operation D),
      get.method = "GET" → post.method = "POST" →
      E.ToLower "GET" = "get" → E.ToLower "POST" = "post" →
      ((Resource.mk "/" mux1 ro1 [Resource.mk "/items" mux2 ro2 [] [post] tags2] [get]
          tags1).toOpenAPI E).paths.Perm ["/", "/items"] ∧
      ((Resource.mk "/" mux1 ro1 [Resource.mk "/items" mux2 ro2 [] [post] tags2] [get]
          tags1).toOpenAPI E).methods "/" = ["get"] ∧
      ((Resource.mk "/" mux1 ro1 [Resource.mk "/items" mux2 ro2 [] [post] tags2] [get]
          tags1).toOpenAPI E).methods "/items" = ["post"]) := by
  refine ⟨?_, ?_, ?_⟩
  · intro E t p m
    rw [← mem_methods_iff_nodes]
    constructor
    · exact fun h => h.2
    · intro h
      exact ⟨(mem_paths_iff _ (WF_toOpenAPI E t) p).2 ⟨m, h⟩, h⟩
  · intro E t p h
    exact (mem_paths_iff _ (WF_toOpenAPI E t) p).1 h
  · intro E mux1 mux2 ro1 ro2 tags1 tags2 get post hget hpost hlg hlp
    have hdoc : (Resource.mk "/" mux1 ro1 [Resource.mk "/items" mux2 ro2 [] [post] tags2] [get]
          tags1).toOpenAPI E
        = [("/items", [("post", Value.fragment (E.opToOpenAPI post))]),
           ("/", [("get", Value.fragment (E.opToOpenAPI get))])] := by
      simp [Resource.toOpenAPI, mergeSubResources, setOperations, Container.Merge,
        Container.MergeFn, Container.Set, Container.New, mapGet, mapPut, hget, hpost, hlg, hlp]
    rw [hdoc]
    refine ⟨?_, ?_, ?_⟩
    · exact List.Perm.swap _ _ _
    · simp [Container.methods, mapGet, mapKeys]
    · simp [Container.methods, mapGet, mapKeys]

/-- C3: when exactly one operation of the whole tree resolves to (p, m), the compiled document
holds at (p, m) the fragment of that operation, as `op.toOpenAPI()` returned it. -/
theorem toOpenAPI_unique_operation (E : Collab M D F) (t : Resource M R D) (p m : String)
    (op : Operation D) (h : t.resolving E p m = [op]) :
    Container.Search (t.toOpenAPI E) p m = some (Value.fragment (E.opToOpenAPI op)) :=
  Search_of_resolving_single E t p m op h

/-- C4: for a method key that some operation of the node itself lowercases to, the document
of the node holds at (its path, that key) the fragment of the last such operation of the
node, whatever its descendants produce at that place. -/
theorem toOpenAPI_own_operation_wins (E : Collab M D F) (n : Resource M R D) (m : String)
    (op : Operation D)
    (h : (n.operations.filter (fun o => E.ToLower o.method = m)).getLast? = some op) :
    Container.Search (n.toOpenAPI E) n.path m = some (Value.fragment (E.opToOpenAPI op)) := by
  rw [Search_toOpenAPI]
  have : n.ownResolving E n.path m = n.operations.filter (fun o => E.ToLower o.method = m) := by
    simp [Resource.ownResolving, opsResolving]
  rw [this, h]

/-- C5, as amended: when a node has no operation of its own at (p, m) and two or more of its
children produce an entry there, the document of the node holds at (p, m) one array with the
fragments of all those entries in child order; no entry replaces another. -/
theorem toOpenAPI_sibling_collision_array (E : Collab M D F) (n : Resource M R D) (p m : String)
    (hown : n.ownResolving E p m = []) (h2 : 2 ≤ (childEntries E p m n).length) :
    Container.Search (n.toOpenAPI E) p m
      = some (Value.array ((childEntries E p m n).flatMap Value.fragments)) := by
  rw [Search_toOpenAPI, hown, List.getLast?_nil]
  simp only []
  rw [mergedChildren_eq]
  cases hc : childEntries E p m n with
  | nil => simp [hc] at h2
  | cons v rest =>
    cases rest with
    | nil => simp [hc] at h2
    | cons w vs => rfl

/-- C8: a tree without any operation compiles to the empty document: no path key at all. -/
theorem toOpenAPI_no_operations (E : Collab M D F) (t : Resource M R D)
    (h : ∀ n ∈ t.nodes, n.operations = []) :
    t.toOpenAPI E = Container.New ∧ (t.toOpenAPI E).paths = [] := by
  have h1 := toOpenAPI_eq_New E t h
  exact ⟨h1, by rw [h1]; rfl⟩

/-- C9: `toOpenAPI` returns a document for every tree, whatever its depth, branching and
collisions: the recursion is structural, there is no failure branch, and the document it
returns is a well-formed map at both levels. -/
theorem toOpenAPI_total (E : Collab M D F) (t : Resource M R D) :
    ∃ doc : Container F, t.toOpenAPI E = doc ∧ doc.WF :=
  ⟨t.toOpenAPI E, rfl, WF_toOpenAPI E t⟩

/-! ## Theorems: pointers into the tree -/

theorem deref_nil (r : Resource M R D) : r.deref [] = some r := by
  cases r
  rfl

theorem deref_cons (r : Resource M R D) (i : Nat) (rest : Ptr) :
    r.deref (i :: rest) = (r.subResources[i]?).bind (fun sub => sub.deref rest) := by
  cases r with
  | mk p m ro subs ops tags =>
    simp only [Resource.deref, Resource.subResources]
    cases subs[i]? <;> rfl

theorem deref_append (r : Resource M R D) (p q : Ptr) :
    r.deref (p ++ q) = (r.deref p).bind (fun n => n.deref q) := by
  induction p generalizing r with
  | nil => simp [deref_nil]
  | cons i rest ih =>
    rw [List.cons_append, deref_cons, deref_cons]
    cases r.subResources[i]? with
    | none => rfl
    | some sub => simp [ih]

theorem update_nil (f : Resource M R D → Resource M R D) (r : Resource M R D) :
    Resource.update f [] r = f r := by
  cases r
  rfl

theorem update_cons (f : Resource M R D → Resource M R D) (i : Nat) (rest : Ptr)
    (r : Resource M R D) :
    Resource.update f (i :: rest) r
      = Resource.mk r.path r.mux r.router (List.modify (Resource.update f rest) i r.subResources)
          r.operations r.tags := by
  cases r
  rfl

theorem deref_update_below (f : Resource M R D → Resource M R D) (p q : Ptr)
    (root : Resource M R D) :
    (Resource.update f p root).deref (p ++ q)
      = (root.deref p).bind (fun r => (f r).deref q) := by
  induction p generalizing root with
  | nil => simp [update_nil, deref_nil]
  | cons i rest ih =>
    cases root with
    | mk pa mu ro subs ops tags =>
      simp only [List.cons_append, Resource.update, Resource.deref, List.getElem?_modify]
      cases subs[i]? with
      | none => rfl
      | some sub => simpa using ih sub

theorem deref_update_same (f : Resource M R D → Resource M R D) (p : Ptr)
    (root : Resource M R D) :
    (Resource.update f p root).deref p = (root.deref p).map f := by
  have := deref_update_below f p [] root
  rw [List.append_nil] at this
  rw [this]
  cases root.deref p <;> simp [deref_nil]

theorem deref_update_above (f : Resource M R D → Resource M R D) (q rest : Ptr)
    (root : Resource M R D) :
    (Resource.update f (q ++ rest) root).deref q
      = (root.deref q).map (Resource.update f rest) := by
  induction q generalizing root with
  | nil => simp [deref_nil]
  | cons i q1 ih =>
    cases root with
    | mk pa mu ro subs ops tags =>
      simp only [List.cons_append, Resource.update, Resource.deref, List.getElem?_modify]
      cases subs[i]? with
      | none => rfl
      | some sub => simpa using ih sub

theorem deref_update_sibling (f : Resource M R D → Resource M R D) (c : Ptr) (i j : Nat)
    (p1 q1 : Ptr) (hij : i ≠ j) (root : Resource M R D) :
    (Resource.update f (c ++ i :: p1) root).deref (c ++ j :: q1) = root.deref (c ++ j :: q1) := by
  induction c generalizing root with
  | nil =>
    cases root with
    | mk pa mu ro subs ops tags =>
      simp only [List.nil_append, Resource.update, Resource.deref, List.getElem?_modify,
        if_neg hij]
      cases subs[j]? <;> rfl
  | cons k c1 ih =>
    cases root with
    | mk pa mu ro subs ops tags =>
      simp only [List.cons_append, Resource.update, Resource.deref, List.getElem?_modify]
      cases subs[k]? with
      | none => rfl
      | some sub => simpa using ih sub

theorem update_cons_fields (f : Resource M R D → Resource M R D) (i : Nat) (rest : Ptr)
    (r : Resource M R D) :
    (Resource.update f (i :: rest) r).path = r.path ∧
    (Resource.update f (i :: rest) r).mux = r.mux ∧
    (Resource.update f (i :: rest) r).router = r.router ∧
    (Resource.update f (i :: rest) r).operations = r.operations ∧
    (Resource.update f (i :: rest) r).tags = r.tags ∧
    (Resource.update f (i :: rest) r).subResources.length = r.subResources.length := by
  rw [update_cons]
  simp [Resource.path, Resource.mux, Resource.router, Resource.operations, Resource.tags,
    Resource.subResources]

theorem SubResource_fst_fields (E : Collab M D F) (r : Resource M R D) (parts : List String) :
    (r.SubResource E parts).1.path = r.path ∧
    (r.SubResource E parts).1.mux = r.mux ∧
    (r.SubResource E parts).1.router = r.router ∧
    (r.SubResource E parts).1.operations = r.operations ∧
    (r.SubResource E parts).1.tags = r.tags ∧
    (r.SubResource E parts).1.subResources = r.subResources ++ [(r.SubResource E parts).2] := by
  simp [Resource.SubResource, Resource.path, Resource.mux, Resource.router,
    Resource.operations, Resource.tags, Resource.subResources]

theorem SubResource_snd_fields (E : Collab M D F) (r : Resource M R D) (parts : List String) :
    (r.SubResource E parts).2.operations = [] ∧
    (r.SubResource E parts).2.subResources = [] ∧
    (r.SubResource E parts).2.tags = r.tags ∧
    (r.SubResource E parts).2.router = none ∧
    (r.SubResource E parts).2.mux = E.Route r.mux (uriTemplate parts) := by
  simp [Resource.SubResource, newSubResource, Resource.mux, Resource.router,
    Resource.operations, Resource.tags, Resource.subResources]

theorem AddTags_fields (r : Resource M R D) (names : List String) :
    (r.AddTags names).path = r.path ∧
    (r.AddTags names).mux = r.mux ∧
    (r.AddTags names).router = r.router ∧
    (r.AddTags names).operations = r.operations ∧
    (r.AddTags names).subResources = r.subResources ∧
    (r.AddTags names).tags = r.tags ++ names := by
  simp [Resource.AddTags, Resource.path, Resource.mux, Resource.router,
    Resource.operations, Resource.tags, Resource.subResources]

theorem callSubResource_ptr (E : Collab M D F) (root r : Resource M R D) (p : Ptr)
    (parts : List String) (h : root.deref p = some r) :
    (callSubResource E root p parts).2 = p ++ [r.subResources.length] := by
  simp [callSubResource, h]

theorem deref_callSubResource_parent (E : Collab M D F) (root r : Resource M R D) (p : Ptr)
    (parts : List String) (h : root.deref p = some r) :
    (callSubResource E root p parts).1.deref p = some (r.SubResource E parts).1 := by
  simp [callSubResource, deref_update_same, h]

theorem deref_callSubResource_child (E : Collab M D F) (root r : Resource M R D) (p : Ptr)
    (parts : List String) (h : root.deref p = some r) :
    (callSubResource E root p parts).1.deref (callSubResource E root p parts).2
      = some (r.SubResource E parts).2 := by
  rw [callSubResource_ptr E root r p parts h]
  simp only [callSubResource]
  rw [deref_update_below, h]
  simp only [Option.some_bind]
  rw [deref_cons, (SubResource_fst_fields E r parts).2.2.2.2.2]
  simp [deref_nil]

theorem deref_callSubResource_earlier (E : Collab M D F) (root r : Resource M R D) (p : Ptr)
    (parts : List String) (h : root.deref p = some r) (i : Nat) (q : Ptr)
    (hi : i < r.subResources.length) :
    (callSubResource E root p parts).1.deref (p ++ i :: q) = root.deref (p ++ i :: q) := by
  simp only [callSubResource]
  rw [deref_update_below, deref_append, h]
  simp only [Option.some_bind]
  rw [deref_cons, deref_cons, (SubResource_fst_fields E r parts).2.2.2.2.2,
    List.getElem?_append_left hi]

theorem deref_callAddTags_child (root : Resource M R D) (p : Ptr) (names : List String)
    (i : Nat) (q : Ptr) :
    (callAddTags root p names).deref (p ++ i :: q) = root.deref (p ++ i :: q) := by
  simp only [callAddTags]
  rw [deref_update_below, deref_append]
  cases root.deref p with
  | none => rfl
  | some r =>
    simp only [Option.some_bind]
    rw [deref_cons, deref_cons, (AddTags_fields r names).2.2.2.2.1]

theorem deref_callAddTags_parent (root : Resource M R D) (p : Ptr) (names : List String)
    (i : Nat) (q : Ptr) :
    ((callAddTags root (p ++ i :: q) names).deref p).map Resource.tags
      = (root.deref p).map Resource.tags := by
  simp only [callAddTags]
  rw [deref_update_above]
  cases root.deref p with
  | none => rfl
  | some r => simp [(update_cons_fields _ i q r).2.2.2.2.1]

theorem deref_callAddTags_same (root r : Resource M R D) (p : Ptr) (names : List String)
    (h : root.deref p = some r) :
    (callAddTags root p names).deref p = some (r.AddTags names) := by
  simp [callAddTags, deref_update_same, h]

/-! ## Theorems: building the tree -/

/-- C6: the child made by `SubResource` starts with the tag list its parent has at that
moment; `AddTags` on a parent leaves the tags of its children as they are, and `AddTags` on a
child leaves the tags of its parent as they are.  With a parent tagged `x`: a first child,
then `AddTags("y")` on the parent, then a second child, leave the first child with `x` and
the second with `x`, `y`. -/
theorem SubResource_tags_snapshot :
    (∀ (E : Collab M D F) (root r : Resource M R D) (p : Ptr) (parts : List String),
      root.deref p = some r →
      ((callSubResource E root p parts).1.deref (callSubResource E root p parts).2).map
        Resource.tags = some r.tags) ∧
    (∀ (root : Resource M R D) (p : Ptr) (i : Nat) (names : List String),
      ((callAddTags root p names).deref (p ++ [i])).map Resource.tags
        = (root.deref (p ++ [i])).map Resource.tags) ∧
    (∀ (root : Resource M R D) (p : Ptr) (i : Nat) (names : List String),
      ((callAddTags root (p ++ [i]) names).deref p).map Resource.tags
        = (root.deref p).map Resource.tags) ∧
    (∀ (E : Collab M D F) (root r : Resource M R D) (p : Ptr) (parts1 parts2 : List String),
      root.deref p = some r → r.tags = ["x"] →
      ((callSubResource E (callAddTags (callSubResource E root p parts1).1 p ["y"]) p
          parts2).1.deref (callSubResource E root p parts1).2).map Resource.tags
        = some ["x"] ∧
      ((callSubResource E (callAddTags (callSubResource E root p parts1).1 p ["y"]) p
          parts2).1.deref
        (callSubResource E (callAddTags (callSubResource E root p parts1).1 p ["y"]) p
          parts2).2).map Resource.tags
        = some ["x", "y"]) := by
  refine ⟨?_, ?_, ?_, ?_⟩
  · intro E root r p parts h
    rw [deref_callSubResource_child E root r p parts h]
    simp [(SubResource_snd_fields E r parts).2.2.1]
  · intro root p i names
    rw [deref_callAddTags_child]
  · intro root p i names
    exact deref_callAddTags_parent root p names i []
  · intro E root r p parts1 parts2 h hx
    have h1 := deref_callSubResource_parent E root r p parts1 h
    have hc1 := deref_callSubResource_child E root r p parts1 h
    have hp1 := callSubResource_ptr E root r p parts1 h
    have h2 := deref_callAddTags_same (callSubResource E root p parts1).1
      (r.SubResource E parts1).1 p ["y"] h1
    have hlen : ((r.SubResource E parts1).1.AddTags ["y"]).subResources.length
        = r.subResources.length + 1 := by
      rw [(AddTags_fields _ _).2.2.2.2.1, (SubResource_fst_fields E r parts1).2.2.2.2.2]
      simp
    constructor
    · rw [hp1, deref_callSubResource_earlier E _ _ p parts2 h2 r.subResources.length []
        (by rw [hlen]; exact Nat.lt_succ_self _), deref_callAddTags_child, ← hp1, hc1]
      simp [(SubResource_snd_fields E r parts1).2.2.1, hx]
    · rw [deref_callSubResource_child E _ _ p parts2 h2]
      simp [(SubResource_snd_fields E _ parts2).2.2.1, (AddTags_fields _ _).2.2.2.2.2,
        (SubResource_fst_fields E r parts1).2.2.2.2.1, hx]

/-- C10: `SubResource` on the node behind `p` changes that node only by adding the new child
at the end of its child list: path, tags, operations, mux and router stay, the children made
earlier keep their positions and all they hold, and the pointer returned stands for the new
child, which has no operations and no children. -/
theorem SubResource_appends_child (E : Collab M D F) (root r : Resource M R D) (p : Ptr)
    (parts : List String) (h : root.deref p = some r) :
    (callSubResource E root p parts).1.deref p = some (r.SubResource E parts).1 ∧
    (callSubResource E root p parts).2 = p ++ [r.subResources.length] ∧
    (callSubResource E root p parts).1.deref (callSubResource E root p parts).2
      = some (r.SubResource E parts).2 ∧
    (r.SubResource E parts).1.subResources = r.subResources ++ [(r.SubResource E parts).2] ∧
    (r.SubResource E parts).1.path = r.path ∧
    (r.SubResource E parts).1.tags = r.tags ∧
    (r.SubResource E parts).1.operations = r.operations ∧
    (r.SubResource E parts).1.mux = r.mux ∧
    (r.SubResource E parts).1.router = r.router ∧
    (r.SubResource E parts).2.operations = [] ∧
    (r.SubResource E parts).2.subResources = [] ∧
    (∀ (i : Nat) (q : Ptr), i < r.subResources.length →
      (callSubResource E root p parts).1.deref (p ++ i :: q) = root.deref (p ++ i :: q)) := by
  have hf := SubResource_fst_fields E r parts
  have hs := SubResource_snd_fields E r parts
  exact ⟨deref_callSubResource_parent E root r p parts h, callSubResource_ptr E root r p parts h,
    deref_callSubResource_child E root r p parts h, hf.2.2.2.2.2, hf.1, hf.2.2.2.2.1,
    hf.2.2.2.1, hf.2.1, hf.2.2.1, hs.1, hs.2.1,
    fun i q hi => deref_callSubResource_earlier E root r p parts h i q hi⟩

/-! ## Worked examples -/

theorem SubResource_path_witness :
    exampleNode.path = "/a" ∧
    (exampleNode.SubResource exampleCollab ["id"]).2.path = "/a/\x7bid\x7d" ∧
    (exampleNode.SubResource exampleCollab ["/b"]).2.path = "/a/b" ∧
    (exampleNode.SubResource exampleCollab ["/b", "id"]).2.path = "/a/b/\x7bid\x7d" :=
  ⟨rfl, SubResource_path.2 exampleCollab exampleNode rfl⟩

theorem toOpenAPI_keys_witness :
    (exampleTree.toOpenAPI exampleCollab).paths.Perm ["/", "/items"] ∧
    (exampleTree.toOpenAPI exampleCollab).methods "/" = ["get"] ∧
    (exampleTree.toOpenAPI exampleCollab).methods "/items" = ["post"] :=
  toOpenAPI_keys.2.2 exampleCollab () () none none [] [] ⟨"GET", "get-root"⟩
    ⟨"POST", "create-item"⟩ rfl rfl (by decide) (by decide)

theorem toOpenAPI_unique_operation_witness :
    exampleDeep.resolving exampleCollab "/a/b" "put" = [⟨"PUT", "put-b"⟩] ∧
    Container.Search (exampleDeep.toOpenAPI exampleCollab) "/a/b" "put"
      = some (Value.fragment "put-b") :=
  ⟨by decide,
   toOpenAPI_unique_operation exampleCollab exampleDeep "/a/b" "put" ⟨"PUT", "put-b"⟩
     (by decide)⟩

theorem toOpenAPI_own_operation_wins_witness :
    (exampleShadowed.operations.filter
        (fun o => exampleCollab.ToLower o.method = "get")).getLast?
      = some ⟨"get", "second-get"⟩ ∧
    Container.Search ((exampleShadowed.subResources.map
        (fun sub => sub.toOpenAPI exampleCollab)).headD Container.New) "/x" "get"
      = some (Value.fragment "child-get") ∧
    Container.Search (exampleShadowed.toOpenAPI exampleCollab) exampleShadowed.path "get"
      = some (Value.fragment "second-get") :=
  ⟨by decide, by decide,
   toOpenAPI_own_operation_wins exampleCollab exampleShadowed "get" ⟨"get", "second-get"⟩
     (by decide)⟩

/-- C5, as the specification states it, fails: two children at `/x` that both declare GET
leave an array of both fragments at (`/x`, `get`), not the fragment of the later child. -/
theorem sibling_collision_keeps_both :
    exampleSiblings.ownResolving exampleCollab "/x" "get" = [] ∧
    childEntries exampleCollab "/x" "get" exampleSiblings
      = [Value.fragment "first-child", Value.fragment "second-child"] ∧
    Container.Search (exampleSiblings.toOpenAPI exampleCollab) "/x" "get"
      = some (Value.array ["first-child", "second-child"]) ∧
    Container.Search (exampleSiblings.toOpenAPI exampleCollab) "/x" "get"
      ≠ (childEntries exampleCollab "/x" "get" exampleSiblings).getLast? := by
  decide

theorem toOpenAPI_sibling_collision_array_witness :
    exampleSiblings.ownResolving exampleCollab "/x" "get" = [] ∧
    2 ≤ (childEntries exampleCollab "/x" "get" exampleSiblings).length ∧
    Container.Search (exampleSiblings.toOpenAPI exampleCollab) "/x" "get"
      = some (Value.array ["first-child", "second-child"]) :=
  ⟨by decide, by decide,
   toOpenAPI_sibling_collision_array exampleCollab exampleSiblings "/x" "get" (by decide)
     (by decide)⟩

theorem toOpenAPI_no_operations_witness :
    (∀ n ∈ exampleBare.nodes, n.operations = []) ∧
    exampleBare.toOpenAPI exampleCollab = Container.New ∧
    (exampleBare.toOpenAPI exampleCollab).paths = [] :=
  ⟨by decide, toOpenAPI_no_operations exampleCollab exampleBare (by decide)⟩

theorem SubResource_tags_snapshot_witness :
    exampleBare.tags = ["x"] ∧
    ((callSubResource exampleCollab
        (callAddTags (callSubResource exampleCollab exampleBare [] ["/c1"]).1 [] ["y"]) []
        ["/c2"]).1.deref
      (callSubResource exampleCollab exampleBare [] ["/c1"]).2).map Resource.tags
      = some ["x"] ∧
    ((callSubResource exampleCollab
        (callAddTags (callSubResource exampleCollab exampleBare [] ["/c1"]).1 [] ["y"]) []
        ["/c2"]).1.deref
      (callSubResource exampleCollab
        (callAddTags (callSubResource exampleCollab exampleBare [] ["/c1"]).1 [] ["y"]) []
        ["/c2"]).2).map Resource.tags
      = some ["x", "y"] :=
  ⟨rfl, SubResource_tags_snapshot.2.2.2 exampleCollab exampleBare exampleBare [] ["/c1"] ["/c2"]
    rfl rfl⟩

theorem SubResource_appends_child_witness :
    (exampleBare.deref [0]).map Resource.path = some "/a" ∧
    (callSubResource exampleCollab exampleBare [0] ["id"]).2 = [0, 1] ∧
    ((callSubResource exampleCollab exampleBare [0] ["id"]).1.deref [0, 1]).map Resource.path
      = some "/a/\x7bid\x7d" ∧
    ((callSubResource exampleCollab exampleBare [0] ["id"]).1.deref [0, 0]).map Resource.path
      = some "/a/b" :=
  ⟨rfl,
   (SubResource_appends_child exampleCollab exampleBare
      (.mk "/a" () none [.mk "/a/b" () none [] [] []] [] []) [0] ["id"] rfl).2.1,
   by decide, by decide⟩

/-! ## Theorems: what a call leaves alone -/

theorem deref_update_keeps {G : Type} (f : Resource M R D → Resource M R D)
    (g : Resource M R D → G)
    (hsub : ∀ (r : Resource M R D) (i : Nat) (q : Ptr) (n : Resource M R D),
      r.deref (i :: q) = some n → (f r).deref (i :: q) = some n)
    (hg : ∀ (h : Resource M R D → Resource M R D) (i : Nat) (rest : Ptr) (r : Resource M R D),
      g (Resource.update h (i :: rest) r) = g r) :
    ∀ (p q : Ptr) (root n : Resource M R D), root.deref q = some n →
      (q = p → g (f n) = g n) →
      ((Resource.update f p root).deref q).map g = some (g n) := by
  intro p
  induction p with
  | nil =>
    intro q root n hq hc
    rw [update_nil]
    cases q with
    | nil =>
      rw [deref_nil] at hq
      cases hq
      rw [deref_nil]
      simp [hc rfl]
    | cons i q1 =>
      rw [hsub root i q1 n hq]
      rfl
  | cons j p1 ih =>
    intro q root n hq hc
    cases q with
    | nil =>
      rw [deref_nil] at hq
      cases hq
      rw [deref_nil]
      simp [hg]
    | cons i q1 =>
      cases root with
      | mk pa mu ro subs ops tags =>
        simp only [Resource.update, Resource.deref, List.getElem?_modify]
        simp only [Resource.deref] at hq
        by_cases hij : j = i
        · subst hij
          cases hs : subs[j]? with
          | none => simp [hs] at hq
          | some sub =>
            rw [hs] at hq
            simp only [if_true, Option.map_eq_map, Option.map_some']
            exact ih q1 sub n hq (fun h => hc (by rw [h]))
        · cases hs : subs[i]? with
          | none => simp [hs] at hq
          | some sub =>
            rw [hs] at hq
            simp only [if_neg hij, Option.map_eq_map, Option.map_some']
            have hq1 : sub.deref q1 = some n := hq
            rw [hq1]
            rfl

theorem Operation_fields (r : Resource M R D) (method : String) (details : D) :
    (r.Operation method details).1.path = r.path ∧
    (r.Operation method details).1.mux = r.mux ∧
    (r.Operation method details).1.router = r.router ∧
    (r.Operation method details).1.subResources = r.subResources ∧
    (r.Operation method details).1.tags = r.tags ∧
    (r.Operation method details).1.operations
      = r.operations ++ [(r.Operation method details).2] ∧
    (r.Operation method details).2.method = method ∧
    (r.Operation method details).2.details = details := by
  simp [Resource.Operation, newOperation, Resource.path, Resource.mux, Resource.router,
    Resource.operations, Resource.tags, Resource.subResources]

theorem deref_of_same_subResources (r r1 : Resource M R D)
    (h : r1.subResources = r.subResources) (i : Nat) (q : Ptr) :
    r1.deref (i :: q) = r.deref (i :: q) := by
  rw [deref_cons, deref_cons, h]

theorem deref_SubResource_old (E : Collab M D F) (r : Resource M R D) (parts : List String)
    (i : Nat) (q : Ptr) (n : Resource M R D) (h : r.deref (i :: q) = some n) :
    (r.SubResource E parts).1.deref (i :: q) = some n := by
  rw [deref_cons] at h
  rw [deref_cons, (SubResource_fst_fields E r parts).2.2.2.2.2]
  cases hs : r.subResources[i]? with
  | none => simp [hs] at h
  | some sub =>
    have hi : i < r.subResources.length := by
      by_contra hc
      rw [List.getElem?_eq_none (Nat.le_of_not_lt hc)] at hs
      exact absurd hs (by simp)
    rw [List.getElem?_append_left hi, hs]
    rw [hs] at h
    exact h

theorem path_update_cons (h : Resource M R D → Resource M R D) (i : Nat) (rest : Ptr)
    (r : Resource M R D) : (Resource.update h (i :: rest) r).path = r.path :=
  (update_cons_fields h i rest r).1

theorem operations_update_cons (h : Resource M R D → Resource M R D) (i : Nat) (rest : Ptr)
    (r : Resource M R D) : (Resource.update h (i :: rest) r).operations = r.operations :=
  (update_cons_fields h i rest r).2.2.2.1

theorem tags_update_cons (h : Resource M R D → Resource M R D) (i : Nat) (rest : Ptr)
    (r : Resource M R D) : (Resource.update h (i :: rest) r).tags = r.tags :=
  (update_cons_fields h i rest r).2.2.2.2.1

theorem deref_exec_path (E : Collab M D F) (c : Call D) (root n : Resource M R D) (q : Ptr)
    (h : root.deref q = some n) :
    ((exec E c root).deref q).map Resource.path = some n.path := by
  have hop : ∀ (method : String) (details : D) (p : Ptr),
      ((Resource.update (fun r => (r.Operation method details).1) p root).deref q).map
        Resource.path = some n.path := by
    intro method details p
    exact deref_update_keeps _ Resource.path
      (fun r i q1 n1 h1 => by
        rw [deref_of_same_subResources r _ (Operation_fields r method details).2.2.2.1]
        exact h1)
      path_update_cons p q root n h (fun _ => (Operation_fields n method details).1)
  cases c with
  | SubResource p parts =>
    exact deref_update_keeps _ Resource.path
      (fun r i q1 n1 h1 => deref_SubResource_old E r parts i q1 n1 h1)
      path_update_cons p q root n h (fun _ => (SubResource_fst_fields E n parts).1)
  | Operation p method details => exact hop method details p
  | Post p details => exact hop MethodPost details p
  | Head p details => exact hop MethodHead details p
  | Get p details => exact hop MethodGet details p
  | Put p details => exact hop MethodPut details p
  | Patch p details => exact hop MethodPatch details p
  | Delete p details => exact hop MethodDelete details p
  | AddTags p names =>
    exact deref_update_keeps _ Resource.path
      (fun r i q1 n1 h1 => by
        rw [deref_of_same_subResources r _ (AddTags_fields r names).2.2.2.2.1]
        exact h1)
      path_update_cons p q root n h (fun _ => (AddTags_fields n names).1)
  | AddMiddleware p =>
    exact deref_update_keeps _ Resource.path (fun r i q1 n1 h1 => h1)
      path_update_cons p q root n h (fun _ => rfl)
  | toOpenAPI p =>
    show (root.deref q).map Resource.path = some n.path
    rw [h]
    rfl

theorem deref_run_path (E : Collab M D F) (calls : List (Call D)) (root n : Resource M R D)
    (q : Ptr) (h : root.deref q = some n) :
    ((run E calls root).deref q).map Resource.path = some n.path := by
  induction calls generalizing root n with
  | nil =>
    show (root.deref q).map Resource.path = some n.path
    rw [h]
    rfl
  | cons c rest ih =>
    show ((run E rest (exec E c root)).deref q).map Resource.path = some n.path
    have h1 := deref_exec_path E c root n q h
    cases hd : (exec E c root).deref q with
    | none => simp [hd] at h1
    | some n1 =>
      rw [hd] at h1
      have hp : n1.path = n.path := by simpa using h1
      rw [← hp]
      exact ih (exec E c root) n1 hd

/-- C11: `Operation` on the node behind `p` adds exactly one operation, with the method string
it was given, at the end of the operation list of that node; the operations before it stay in
their order, path, tags, child list, mux and router of the node stay, the subtrees below the
node stay, and no other node of the tree gets an operation.  The call is a total function:
it has no failure branch. -/
theorem Operation_appends (root r : Resource M R D) (p : Ptr) (method : String) (details : D)
    (h : root.deref p = some r) :
    (callOperation root p method details).1.deref p = some (r.Operation method details).1 ∧
    (callOperation root p method details).2 = some (r.Operation method details).2 ∧
    (r.Operation method details).2.method = method ∧
    (r.Operation method details).1.operations
      = r.operations ++ [(r.Operation method details).2] ∧
    (r.Operation method details).1.path = r.path ∧
    (r.Operation method details).1.tags = r.tags ∧
    (r.Operation method details).1.subResources = r.subResources ∧
    (∀ (i : Nat) (q : Ptr),
      (callOperation root p method details).1.deref (p ++ i :: q) = root.deref (p ++ i :: q)) ∧
    (∀ (q : Ptr) (n : Resource M R D), q ≠ p → root.deref q = some n →
      ((callOperation root p method details).1.deref q).map Resource.operations
        = some n.operations) := by
  have hf := Operation_fields r method details
  refine ⟨?_, ?_, hf.2.2.2.2.2.2.1, hf.2.2.2.2.2.1, hf.1, hf.2.2.2.2.1, hf.2.2.2.1, ?_, ?_⟩
  · simp [callOperation, deref_update_same, h]
  · simp [callOperation, h]
  · intro i q
    simp only [callOperation]
    rw [deref_update_below, deref_append, h]
    simp only [Option.some_bind]
    exact deref_of_same_subResources r _ hf.2.2.2.1 i q
  · intro q n hq hn
    exact deref_update_keeps _ Resource.operations
      (fun r1 i q1 n1 h1 => by
        rw [deref_of_same_subResources r1 _ (Operation_fields r1 method details).2.2.2.1]
        exact h1)
      operations_update_cons p q root n hn (fun hqp => absurd hqp hq)

/-- C13: `AddTags` on the node behind `p` leaves that node with its tag list followed by the
names in the order given, duplicates kept; path, operations, child list, mux and router of
the node stay, and the call returns the pointer it was called on. -/
theorem AddTags_appends (root r : Resource M R D) (p : Ptr) (names : List String)
    (h : root.deref p = some r) :
    (callAddTagsResult root p names).1.deref p = some (r.AddTags names) ∧
    (callAddTagsResult root p names).2 = p ∧
    (r.AddTags names).tags = r.tags ++ names ∧
    (r.AddTags names).path = r.path ∧
    (r.AddTags names).operations = r.operations ∧
    (r.AddTags names).subResources = r.subResources ∧
    (r.AddTags names).mux = r.mux ∧
    (r.AddTags names).router = r.router ∧
    (∀ (i : Nat) (q : Ptr),
      (callAddTagsResult root p names).1.deref (p ++ i :: q) = root.deref (p ++ i :: q)) := by
  have hf := AddTags_fields r names
  exact ⟨deref_callAddTags_same root r p names h, rfl, hf.2.2.2.2.2, hf.1, hf.2.2.2.1,
    hf.2.2.2.2.1, hf.2.1, hf.2.2.1, fun i q => deref_callAddTags_child root p names i q⟩

/-- C14: the path of a node never changes: after any sequence of calls of `SubResource`,
`Operation`, a verb helper, `AddTags`, `AddMiddleware` or `toOpenAPI`, on any nodes of the
tree, the node behind a pointer that existed before has the path it had. -/
theorem path_never_changes (E : Collab M D F) (calls : List (Call D)) (root n : Resource M R D)
    (q : Ptr) (h : root.deref q = some n) :
    ((run E calls root).deref q).map Resource.path = some n.path :=
  deref_run_path E calls root n q h

/-- C15: `toOpenAPI` reads the tree and assigns nothing in it: after the call the tree is the
tree before it, node for node, and a second call on it returns the document the first call
returned. -/
theorem toOpenAPI_pure (E : Collab M D F) (root : Resource M R D) (p : Ptr) :
    (callToOpenAPI E root p).1 = root ∧
    (∀ q : Ptr, (callToOpenAPI E root p).1.deref q = root.deref q) ∧
    (callToOpenAPI E (callToOpenAPI E root p).1 p).2 = (callToOpenAPI E root p).2 ∧
    exec E (Call.toOpenAPI p) root = root :=
  ⟨rfl, fun _ => rfl, rfl, rfl⟩

/-! ## Theorems: verb helpers, split parts and sibling paths -/

theorem mem_nodes_of_deref (p : Ptr) (root n : Resource M R D) (h : root.deref p = some n) :
    n ∈ root.nodes := by
  induction p generalizing root with
  | nil =>
    rw [deref_nil] at h
    cases h
    exact mem_nodes_self _
  | cons i rest ih =>
    cases root with
    | mk pa mu ro subs ops tags =>
      simp only [Resource.deref] at h
      cases hs : subs[i]? with
      | none => simp [hs] at h
      | some sub =>
        rw [hs] at h
        exact mem_nodes_of_child pa mu ro subs ops tags sub n (List.getElem?_mem hs) (ih sub h)

theorem mem_methods_callOperation (E : Collab M D F) (root r : Resource M R D) (p : Ptr)
    (method : String) (details : D) (h : root.deref p = some r) :
    E.ToLower method ∈ ((callOperation root p method details).1.toOpenAPI E).methods r.path := by
  rw [mem_methods_iff_nodes]
  have hf := Operation_fields r method details
  have hd : (callOperation root p method details).1.deref p
      = some (r.Operation method details).1 := by
    simp [callOperation, deref_update_same, h]
  refine ⟨(r.Operation method details).1, mem_nodes_of_deref p _ _ hd, hf.1,
    (r.Operation method details).2, ?_, ?_⟩
  · rw [hf.2.2.2.2.2.1]
    simp
  · rw [hf.2.2.2.2.2.2.1]

theorem uriTemplate_append (ps qs : List String) :
    uriTemplate (ps ++ qs) = uriTemplate ps ++ uriTemplate qs := by
  unfold uriTemplate
  rw [List.foldl_append, foldl_appendPart qs (List.foldl appendPart "" ps),
    foldl_appendPart qs "", String.empty_append]

theorem string_append_left_cancel (s a b : String) : s ++ a = s ++ b ↔ a = b := by
  constructor
  · intro h
    have h1 := congrArg String.data h
    rw [String.data_append, String.data_append] at h1
    exact String.ext (List.append_cancel_left h1)
  · intro h
    rw [h]

/-- C12: each verb helper is `Operation` with its HTTP method: `Post`, `Head`, `Get`, `Put`,
`Patch` and `Delete` do what `Operation` does with `POST`, `HEAD`, `GET`, `PUT`, `PATCH` and
`DELETE` and the same remaining arguments, and compiling the tree after the call gives the
lowercased method as a method key under the path of the node. -/
theorem verb_helpers_are_Operation :
    (∀ (r : Resource M R D) (details : D),
      r.Post details = r.Operation "POST" details ∧
      r.Head details = r.Operation "HEAD" details ∧
      r.Get details = r.Operation "GET" details ∧
      r.Put details = r.Operation "PUT" details ∧
      r.Patch details = r.Operation "PATCH" details ∧
      r.Delete details = r.Operation "DELETE" details) ∧
    (∀ (E : Collab M D F) (root : Resource M R D) (p : Ptr) (details : D),
      exec E (Call.Post p details) root = exec E (Call.Operation p "POST" details) root ∧
      exec E (Call.Head p details) root = exec E (Call.Operation p "HEAD" details) root ∧
      exec E (Call.Get p details) root = exec E (Call.Operation p "GET" details) root ∧
      exec E (Call.Put p details) root = exec E (Call.Operation p "PUT" details) root ∧
      exec E (Call.Patch p details) root = exec E (Call.Operation p "PATCH" details) root ∧
      exec E (Call.Delete p details) root
        = exec E (Call.Operation p "DELETE" details) root) ∧
    (∀ (E : Collab M D F) (root r : Resource M R D) (p : Ptr) (details : D),
      root.deref p = some r →
      (E.ToLower "POST" = "post" →
        "post" ∈ ((exec E (Call.Post p details) root).toOpenAPI E).methods r.path) ∧
      (E.ToLower "HEAD" = "head" →
        "head" ∈ ((exec E (Call.Head p details) root).toOpenAPI E).methods r.path) ∧
      (E.ToLower "GET" = "get" →
        "get" ∈ ((exec E (Call.Get p details) root).toOpenAPI E).methods r.path) ∧
      (E.ToLower "PUT" = "put" →
        "put" ∈ ((exec E (Call.Put p details) root).toOpenAPI E).methods r.path) ∧
      (E.ToLower "PATCH" = "patch" →
        "patch" ∈ ((exec E (Call.Patch p details) root).toOpenAPI E).methods r.path) ∧
      (E.ToLower "DELETE" = "delete" →
        "delete" ∈ ((exec E (Call.Delete p details) root).toOpenAPI E).methods r.path)) := by
  refine ⟨fun r details => ⟨rfl, rfl, rfl, rfl, rfl, rfl⟩,
    fun E root p details => ⟨rfl, rfl, rfl, rfl, rfl, rfl⟩, ?_⟩
  intro E root r p details h
  have key : ∀ method : String,
      E.ToLower method
        ∈ ((callOperation root p method details).1.toOpenAPI E).methods r.path :=
    fun method => mem_methods_callOperation E root r p method details h
  refine ⟨?_, ?_, ?_, ?_, ?_, ?_⟩
  · intro hl
    rw [← hl]
    exact key "POST"
  · intro hl
    rw [← hl]
    exact key "HEAD"
  · intro hl
    rw [← hl]
    exact key "GET"
  · intro hl
    rw [← hl]
    exact key "PUT"
  · intro hl
    rw [← hl]
    exact key "PATCH"
  · intro hl
    rw [← hl]
    exact key "DELETE"

/-- C17: path composition distributes over splitting the parts: the template of `ps ++ qs` is
the template of `ps` followed by the template of `qs`, the template of no parts is empty, and
the child of the child made with `ps` and then `qs` has the path of the child made with
`ps ++ qs`, as nodes and behind the pointers the calls return. -/
theorem SubResource_path_splits :
    (∀ ps qs : List String, uriTemplate (ps ++ qs) = uriTemplate ps ++ uriTemplate qs) ∧
    uriTemplate [] = "" ∧
    (∀ (E : Collab M D F) (r : Resource M R D) (ps qs : List String),
      ((r.SubResource E ps).2.SubResource E qs).2.path
        = (r.SubResource E (ps ++ qs)).2.path) ∧
    (∀ (E : Collab M D F) (root r : Resource M R D) (p : Ptr) (ps qs : List String),
      root.deref p = some r →
      ((callSubResource E (callSubResource E root p ps).1 (callSubResource E root p ps).2
          qs).1.deref
        (callSubResource E (callSubResource E root p ps).1 (callSubResource E root p ps).2
          qs).2).map Resource.path
        = ((callSubResource E root p (ps ++ qs)).1.deref
            (callSubResource E root p (ps ++ qs)).2).map Resource.path) := by
  have hnode : ∀ (E : Collab M D F) (r : Resource M R D) (ps qs : List String),
      ((r.SubResource E ps).2.SubResource E qs).2.path
        = (r.SubResource E (ps ++ qs)).2.path := by
    intro E r ps qs
    simp [Resource.SubResource, newSubResource, Resource.path, uriTemplate_append,
      String.append_assoc]
  refine ⟨uriTemplate_append, rfl, hnode, ?_⟩
  intro E root r p ps qs h
  rw [deref_callSubResource_child E root r p (ps ++ qs) h,
    deref_callSubResource_child E _ _ _ qs (deref_callSubResource_child E root r p ps h)]
  simp [hnode]

theorem deref_some_of_map {G : Type} (t : Resource M R D) (q : Ptr)
    (g : Resource M R D → G) (v : G) (h : (t.deref q).map g = some v) :
    ∃ n, t.deref q = some n ∧ g n = v := by
  cases hd : t.deref q with
  | none => simp [hd] at h
  | some n =>
    rw [hd] at h
    exact ⟨n, rfl, by simpa using h⟩

theorem child_index_lt (t parent child : Resource M R D) (p : Ptr) (k : Nat)
    (hp : t.deref p = some parent) (hc : t.deref (p ++ [k]) = some child) :
    k < parent.subResources.length := by
  rw [deref_append, hp] at hc
  simp only [Option.some_bind] at hc
  rw [deref_cons] at hc
  by_contra hlt
  rw [List.getElem?_eq_none (Nat.le_of_not_lt hlt)] at hc
  simp at hc

/-- Two children of the node behind `p`, made by calls of `SubResource` that return, with any
calls in between, get the path of that node followed by the suffix of their own parts, behind
two different pointers; their paths are equal exactly when the two suffixes are equal. -/
theorem child_paths_eq_iff (E : Collab M D F) (root r : Resource M R D) (p : Ptr)
    (parts1 parts2 : List String) (between : List (Call D)) (h : root.deref p = some r) :
    ((callSubResource E (run E between (callSubResource E root p parts1).1) p parts2).1.deref
        (callSubResource E root p parts1).2).map Resource.path
      = some (r.path ++ specSuffix parts1) ∧
    ((callSubResource E (run E between (callSubResource E root p parts1).1) p parts2).1.deref
        (callSubResource E (run E between (callSubResource E root p parts1).1) p parts2).2).map
        Resource.path
      = some (r.path ++ specSuffix parts2) ∧
    (callSubResource E root p parts1).2
      ≠ (callSubResource E (run E between (callSubResource E root p parts1).1) p parts2).2 ∧
    (((callSubResource E (run E between (callSubResource E root p parts1).1) p parts2).1.deref
        (callSubResource E root p parts1).2).map Resource.path
      = ((callSubResource E (run E between (callSubResource E root p parts1).1) p parts2).1.deref
        (callSubResource E (run E between (callSubResource E root p parts1).1) p parts2).2).map
        Resource.path
      ↔ specSuffix parts1 = specSuffix parts2) := by
  have hchild1 := deref_callSubResource_child E root r p parts1 h
  have hparent1 := deref_callSubResource_parent E root r p parts1 h
  have hptr1 := callSubResource_ptr E root r p parts1 h
  have hpath1 : (r.SubResource E parts1).2.path = r.path ++ specSuffix parts1 := by
    simp [Resource.SubResource, newSubResource, Resource.path, uriTemplate_eq_specSuffix]
  obtain ⟨c1, hc1, hc1p⟩ := deref_some_of_map _ _ Resource.path _
    (deref_run_path E between _ _ _ hchild1)
  obtain ⟨r2, hr2, hr2p⟩ := deref_some_of_map _ _ Resource.path _
    (deref_run_path E between _ _ _ hparent1)
  have hr2path : r2.path = r.path := by
    rw [hr2p, (SubResource_fst_fields E r parts1).1]
  have hlt : r.subResources.length < r2.subResources.length := by
    rw [hptr1] at hc1
    exact child_index_lt _ r2 c1 p _ hr2 hc1
  have hptr2 := callSubResource_ptr E _ r2 p parts2 hr2
  have hfirst : ((callSubResource E (run E between (callSubResource E root p parts1).1) p
        parts2).1.deref (callSubResource E root p parts1).2).map Resource.path
      = some (r.path ++ specSuffix parts1) := by
    rw [hptr1, deref_callSubResource_earlier E _ r2 p parts2 hr2 _ [] hlt, ← hptr1, hc1]
    simp [hc1p, hpath1]
  have hsecond : ((callSubResource E (run E between (callSubResource E root p parts1).1) p
        parts2).1.deref
        (callSubResource E (run E between (callSubResource E root p parts1).1) p parts2).2).map
        Resource.path
      = some (r.path ++ specSuffix parts2) := by
    have hpath2 : (r2.SubResource E parts2).2.path = r2.path ++ specSuffix parts2 := by
      simp [Resource.SubResource, newSubResource, Resource.path, uriTemplate_eq_specSuffix]
    rw [deref_callSubResource_child E _ r2 p parts2 hr2]
    simp [hpath2, hr2path]
  refine ⟨hfirst, hsecond, ?_, ?_⟩
  · rw [hptr1, hptr2]
    intro heq
    have := List.append_cancel_left heq
    simp at this
    omega
  · rw [hfirst, hsecond]
    simp [string_append_left_cancel]

/-! ## Theorems: nested paths -/

theorem StartsWith_refl (s : String) : StartsWith s s :=
  ⟨"", (String.append_empty s).symm⟩

theorem StartsWith_trans {a b c : String} (h1 : StartsWith a b) (h2 : StartsWith b c) :
    StartsWith a c := by
  obtain ⟨x, hx⟩ := h1
  obtain ⟨y, hy⟩ := h2
  exact ⟨y ++ x, by rw [hx, hy, String.append_assoc]⟩

theorem childrenNested_iff (path : String) (subs : List (Resource M R D)) :
    childrenNested path subs ↔ ∀ c ∈ subs, StartsWith c.path path ∧ c.PathsNested := by
  induction subs with
  | nil => simp [childrenNested]
  | cons sub rest ih =>
    rw [childrenNested, ih]
    simp

theorem PathsNested_iff (t : Resource M R D) :
    t.PathsNested ↔ ∀ c ∈ t.subResources, StartsWith c.path t.path ∧ c.PathsNested := by
  cases t with
  | mk pa mu ro subs ops tags =>
    rw [Resource.PathsNested, childrenNested_iff]
    rfl

theorem PathsNested_of_same (r r1 : Resource M R D) (hp : r1.path = r.path)
    (hs : r1.subResources = r.subResources) (h : r.PathsNested) : r1.PathsNested := by
  rw [PathsNested_iff] at h ⊢
  rw [hp, hs]
  exact h

theorem PathsNested_SubResource (E : Collab M D F) (r : Resource M R D) (parts : List String)
    (h : r.PathsNested) : (r.SubResource E parts).1.PathsNested := by
  have hf := SubResource_fst_fields E r parts
  rw [PathsNested_iff] at h ⊢
  rw [hf.1, hf.2.2.2.2.2]
  intro c hc
  rcases List.mem_append.1 hc with h1 | h1
  · exact h c h1
  · have hceq : c = (r.SubResource E parts).2 := by simpa using h1
    subst hceq
    constructor
    · exact ⟨uriTemplate parts, by
        simp [Resource.SubResource, newSubResource, Resource.path]⟩
    · rw [PathsNested_iff, (SubResource_snd_fields E r parts).2.1]
      intro c1 hc1
      exact absurd hc1 (List.not_mem_nil _)

theorem path_update (f : Resource M R D → Resource M R D) (hp : ∀ r, (f r).path = r.path)
    (p : Ptr) (root : Resource M R D) : (Resource.update f p root).path = root.path := by
  cases p with
  | nil => rw [update_nil, hp]
  | cons i rest => exact path_update_cons f i rest root

theorem mem_modify {α : Type} (g : α → α) (l : List α) (i : Nat) (c : α)
    (h : c ∈ List.modify g i l) : c ∈ l ∨ ∃ c0 ∈ l, c = g c0 := by
  induction l generalizing i with
  | nil => simp at h
  | cons a rest ih =>
    cases i with
    | zero =>
      rw [List.modify_zero_cons] at h
      rcases List.mem_cons.1 h with h1 | h1
      · exact Or.inr ⟨a, List.mem_cons_self _ _, h1⟩
      · exact Or.inl (List.mem_cons_of_mem _ h1)
    | succ k =>
      rw [List.modify_succ_cons] at h
      rcases List.mem_cons.1 h with h1 | h1
      · exact Or.inl (h1 ▸ List.mem_cons_self _ _)
      · rcases ih k h1 with h2 | ⟨c0, hc0, h2⟩
        · exact Or.inl (List.mem_cons_of_mem _ h2)
        · exact Or.inr ⟨c0, List.mem_cons_of_mem _ hc0, h2⟩

theorem PathsNested_update (f : Resource M R D → Resource M R D)
    (hp : ∀ r, (f r).path = r.path) (hf : ∀ r, r.PathsNested → (f r).PathsNested) :
    ∀ (p : Ptr) (root : Resource M R D), root.PathsNested →
      (Resource.update f p root).PathsNested := by
  intro p
  induction p with
  | nil =>
    intro root h
    rw [update_nil]
    exact hf root h
  | cons i rest ih =>
    intro root h
    rw [update_cons, PathsNested_iff]
    rw [PathsNested_iff] at h
    intro c hc
    have hc1 : c ∈ List.modify (Resource.update f rest) i root.subResources := hc
    rcases mem_modify _ _ _ _ hc1 with h1 | ⟨c0, hc0, h1⟩
    · exact h c h1
    · subst h1
      have h0 := h c0 hc0
      exact ⟨by rw [path_update f hp rest c0]; exact h0.1, ih c0 h0.2⟩

theorem PathsNested_exec (E : Collab M D F) (c : Call D) (root : Resource M R D)
    (h : root.PathsNested) : (exec E c root).PathsNested := by
  have hop : ∀ (method : String) (details : D) (p : Ptr),
      (Resource.update (fun r => (r.Operation method details).1) p root).PathsNested := by
    intro method details p
    exact PathsNested_update _ (fun r => (Operation_fields r method details).1)
      (fun r hr => PathsNested_of_same r _ (Operation_fields r method details).1
        (Operation_fields r method details).2.2.2.1 hr) p root h
  cases c with
  | SubResource p parts =>
    exact PathsNested_update _ (fun r => (SubResource_fst_fields E r parts).1)
      (fun r hr => PathsNested_SubResource E r parts hr) p root h
  | Operation p method details => exact hop method details p
  | Post p details => exact hop MethodPost details p
  | Head p details => exact hop MethodHead details p
  | Get p details => exact hop MethodGet details p
  | Put p details => exact hop MethodPut details p
  | Patch p details => exact hop MethodPatch details p
  | Delete p details => exact hop MethodDelete details p
  | AddTags p names =>
    exact PathsNested_update _ (fun r => (AddTags_fields r names).1)
      (fun r hr => PathsNested_of_same r _ (AddTags_fields r names).1
        (AddTags_fields r names).2.2.2.2.1 hr) p root h
  | AddMiddleware p =>
    exact PathsNested_update _ (fun _ => rfl) (fun _ hr => hr) p root h
  | toOpenAPI p => exact h

theorem PathsNested_run (E : Collab M D F) (calls : List (Call D)) (root : Resource M R D)
    (h : root.PathsNested) : (run E calls root).PathsNested := by
  induction calls generalizing root with
  | nil => exact h
  | cons c rest ih => exact ih (exec E c root) (PathsNested_exec E c root h)

theorem PathsNested_deref (q : Ptr) (t a : Resource M R D) (h : t.PathsNested)
    (hq : t.deref q = some a) : a.PathsNested ∧ StartsWith a.path t.path := by
  induction q generalizing t with
  | nil =>
    rw [deref_nil] at hq
    cases hq
    exact ⟨h, StartsWith_refl _⟩
  | cons i rest ih =>
    rw [deref_cons] at hq
    cases hs : t.subResources[i]? with
    | none => simp [hs] at hq
    | some sub =>
      rw [hs] at hq
      have hsub := (PathsNested_iff t).1 h sub (List.getElem?_mem hs)
      have h1 := ih sub hsub.2 hq
      exact ⟨h1.1, StartsWith_trans h1.2 hsub.1⟩

theorem StartsWith_of_mem_nodes (t : Resource M R D) :
    t.PathsNested → ∀ n ∈ t.nodes, StartsWith n.path t.path := by
  induction t using Resource.induct with
  | h pa mu ro subs ops tags ih =>
    intro h n hn
    rw [nodes_mk] at hn
    rcases List.mem_cons.1 hn with h1 | h1
    · rw [h1]
      exact StartsWith_refl _
    · obtain ⟨s, hs, hns⟩ := List.mem_flatMap.1 h1
      have hsub := (PathsNested_iff _).1 h s hs
      exact StartsWith_trans (ih s hs hsub.2 n hns) hsub.1

theorem path_run (E : Collab M D F) (calls : List (Call D)) (root : Resource M R D) :
    (run E calls root).path = root.path := by
  have h := deref_run_path E calls root root [] (deref_nil root)
  rw [deref_nil] at h
  simpa using h

/-- C18: in every tree that a sequence of calls builds from a single root node, the path of
each child starts with the path of its parent, the path of every descendant starts with the
path of each of its ancestors, and every path key of the compiled document starts with the
path of the root. -/
theorem paths_nested_reachable (E : Collab M D F) (root0 : Resource M R D)
    (calls : List (Call D)) (h0 : root0.subResources = []) :
    (run E calls root0).PathsNested ∧
    (∀ (q : Ptr) (i : Nat) (parent child : Resource M R D),
      (run E calls root0).deref q = some parent →
      (run E calls root0).deref (q ++ [i]) = some child →
      StartsWith child.path parent.path) ∧
    (∀ (q q1 : Ptr) (a b : Resource M R D),
      (run E calls root0).deref q = some a →
      (run E calls root0).deref (q ++ q1) = some b →
      StartsWith b.path a.path) ∧
    (∀ p ∈ ((run E calls root0).toOpenAPI E).paths, StartsWith p root0.path) := by
  have hinit : root0.PathsNested := by
    rw [PathsNested_iff, h0]
    intro c hc
    exact absurd hc (List.not_mem_nil _)
  have hrun := PathsNested_run E calls root0 hinit
  have hdesc : ∀ (q q1 : Ptr) (a b : Resource M R D),
      (run E calls root0).deref q = some a →
      (run E calls root0).deref (q ++ q1) = some b →
      StartsWith b.path a.path := by
    intro q q1 a b ha hb
    rw [deref_append, ha] at hb
    exact (PathsNested_deref q1 a b (PathsNested_deref q _ a hrun ha).1 hb).2
  refine ⟨hrun, fun q i parent child hp hc => hdesc q [i] parent child hp hc, hdesc, ?_⟩
  intro p hp
  obtain ⟨m, hm⟩ := (mem_paths_iff _ (WF_toOpenAPI E _) p).1 hp
  obtain ⟨n, hn, hnp, _⟩ := (mem_methods_iff_nodes E _ p m).1 hm
  rw [← hnp, ← path_run E calls root0]
  exact StartsWith_of_mem_nodes _ hrun n hn

/-! ## Theorems: the order of the children -/

theorem mem_pairs_of_opsResolving (E : Collab M D F) (path p m : String)
    (ops : List (Operation D)) (h : opsResolving E path p m ops ≠ []) :
    (p, m) ∈ ops.map (fun op => (path, E.ToLower op.method)) := by
  obtain ⟨op, hop⟩ := List.exists_mem_of_ne_nil _ h
  unfold opsResolving at hop
  by_cases hp : path = p
  · rw [if_pos hp] at hop
    have := List.mem_filter.1 hop
    have hm : E.ToLower op.method = m := by simpa using this.2
    exact List.mem_map.2 ⟨op, this.1, by rw [hp, hm]⟩
  · rw [if_neg hp] at hop
    exact absurd hop (List.not_mem_nil _)

theorem opsResolving_length_le_one (E : Collab M D F) (path p m : String)
    (ops : List (Operation D))
    (hnd : (ops.map (fun op => (path, E.ToLower op.method))).Nodup) :
    (opsResolving E path p m ops).length ≤ 1 := by
  induction ops with
  | nil => simp [opsResolving]
  | cons op rest ih =>
    rw [List.map_cons, List.nodup_cons] at hnd
    have hrest := ih hnd.2
    by_cases hp : path = p
    · by_cases hm : E.ToLower op.method = m
      · have hnil : opsResolving E path p m rest = [] := by
          by_contra hne
          have := mem_pairs_of_opsResolving E path p m rest hne
          rw [← hp, ← hm] at this
          exact hnd.1 this
        have hcons : opsResolving E path p m (op :: rest)
            = op :: opsResolving E path p m rest := by
          simp [opsResolving, hp, hm]
        rw [hcons, hnil]
        simp
      · have hcons : opsResolving E path p m (op :: rest) = opsResolving E path p m rest := by
          simp [opsResolving, hp, hm]
        rw [hcons]
        exact hrest
    · simp [opsResolving, hp]

theorem flatMap_resolving_length_le_one (E : Collab M D F) (p m : String)
    (ns : List (Resource M R D))
    (hnd : (ns.flatMap
      (fun n => n.operations.map (fun op => (n.path, E.ToLower op.method)))).Nodup) :
    (ns.flatMap (Resource.ownResolving E p m)).length ≤ 1 := by
  induction ns with
  | nil => simp
  | cons n rest ih =>
    rw [List.flatMap_cons, List.nodup_append] at hnd
    have hown : (Resource.ownResolving E p m n).length ≤ 1 :=
      opsResolving_length_le_one E n.path p m n.operations hnd.1
    have hrest := ih hnd.2.1
    rw [List.flatMap_cons, List.length_append]
    by_cases h1 : Resource.ownResolving E p m n = []
    · rw [h1]
      simpa using hrest
    · by_cases h2 : rest.flatMap (Resource.ownResolving E p m) = []
      · rw [h2]
        simpa using hown
      · exfalso
        have hm1 := mem_pairs_of_opsResolving E n.path p m n.operations h1
        obtain ⟨op, hop⟩ := List.exists_mem_of_ne_nil _ h2
        obtain ⟨n2, hn2, hop2⟩ := List.mem_flatMap.1 hop
        have hm2 : (p, m) ∈ rest.flatMap
            (fun n => n.operations.map (fun op => (n.path, E.ToLower op.method))) :=
          List.mem_flatMap.2 ⟨n2, hn2,
            mem_pairs_of_opsResolving E n2.path p m n2.operations (List.ne_nil_of_mem hop2)⟩
        exact hnd.2.2 hm1 hm2

theorem resolving_length_le_one (E : Collab M D F) (t : Resource M R D) (p m : String)
    (hnd : (t.pairs E).Nodup) : (t.resolving E p m).length ≤ 1 :=
  flatMap_resolving_length_le_one E p m t.nodes hnd

theorem flatMap_modify_perm {α β : Type} (f : α → List β) (g : α → α) (l : List α) (i : Nat)
    (s : α) (hs : l[i]? = some s) (h : (f (g s)).Perm (f s)) :
    ((List.modify g i l).flatMap f).Perm (l.flatMap f) := by
  induction l generalizing i with
  | nil => simp at hs
  | cons a rest ih =>
    cases i with
    | zero =>
      have ha : a = s := by simpa using hs
      subst ha
      rw [List.modify_zero_cons, List.flatMap_cons, List.flatMap_cons]
      exact List.Perm.append h (List.Perm.refl _)
    | succ k =>
      have hk : rest[k]? = some s := by simpa using hs
      rw [List.modify_succ_cons, List.flatMap_cons, List.flatMap_cons]
      exact List.Perm.append (List.Perm.refl _) (ih k hk)

theorem resolving_withSubResources_perm (E : Collab M D F) (pa me : String)
    (subs : List (Resource M R D)) :
    ∀ (p : Ptr) (t r : Resource M R D), t.deref p = some r → subs.Perm r.subResources →
      ((Resource.update (fun n => n.withSubResources subs) p t).resolving E pa me).Perm
        (t.resolving E pa me) := by
  intro p
  induction p with
  | nil =>
    intro t r h hperm
    rw [deref_nil] at h
    cases h
    rw [update_nil]
    cases t with
    | mk path mu ro ch ops tags =>
      simp only [Resource.withSubResources, Resource.path, Resource.mux, Resource.router,
        Resource.operations, Resource.tags]
      rw [resolving_mk, resolving_mk]
      exact List.Perm.append (List.Perm.refl _) (List.Perm.flatMap_right _ hperm)
  | cons i rest ih =>
    intro t r h hperm
    cases t with
    | mk path mu ro ch ops tags =>
      simp only [Resource.deref] at h
      cases hs : ch[i]? with
      | none => simp [hs] at h
      | some sub =>
        rw [hs] at h
        simp only [Resource.update]
        rw [resolving_mk, resolving_mk]
        exact List.Perm.append (List.Perm.refl _)
          (flatMap_modify_perm _ _ ch i sub hs (ih sub r h hperm))

theorem Search_of_resolving_perm (E : Collab M D F) (t t1 : Resource M R D) (p m : String)
    (hperm : (t1.resolving E p m).Perm (t.resolving E p m))
    (hle : (t.resolving E p m).length ≤ 1) :
    Container.Search (t1.toOpenAPI E) p m = Container.Search (t.toOpenAPI E) p m := by
  cases hl : t.resolving E p m with
  | nil =>
    rw [hl] at hperm
    rw [(Search_eq_none_iff E t p m).2 hl,
      (Search_eq_none_iff E t1 p m).2 (List.perm_nil.1 hperm)]
  | cons op rest =>
    cases rest with
    | nil =>
      rw [hl] at hperm
      rw [Search_of_resolving_single E t p m op hl,
        Search_of_resolving_single E t1 p m op (List.perm_singleton.1 hperm)]
    | cons op2 rest2 =>
      rw [hl] at hle
      simp at hle

/-- C19: when no two operations of the tree share path and lowercased method, putting the
children of any node in another order leaves the compiled document the same mapping: the
same value under every (path, method), and the same path keys and method keys. -/
theorem toOpenAPI_child_order (E : Collab M D F) (t r : Resource M R D) (p : Ptr)
    (subs : List (Resource M R D)) (h : t.deref p = some r)
    (hperm : subs.Perm r.subResources) (hnd : (t.pairs E).Nodup) :
    (∀ pa me : String,
      Container.Search
          ((Resource.update (fun n => n.withSubResources subs) p t).toOpenAPI E) pa me
        = Container.Search (t.toOpenAPI E) pa me) ∧
    (∀ pa me : String,
      me ∈ ((Resource.update (fun n => n.withSubResources subs) p t).toOpenAPI E).methods pa
        ↔ me ∈ (t.toOpenAPI E).methods pa) ∧
    (∀ pa : String,
      pa ∈ ((Resource.update (fun n => n.withSubResources subs) p t).toOpenAPI E).paths
        ↔ pa ∈ (t.toOpenAPI E).paths) := by
  have hsearch : ∀ pa me : String,
      Container.Search
          ((Resource.update (fun n => n.withSubResources subs) p t).toOpenAPI E) pa me
        = Container.Search (t.toOpenAPI E) pa me := by
    intro pa me
    apply Search_of_resolving_perm E t _ pa me
      (resolving_withSubResources_perm E pa me subs p t r h hperm)
    exact resolving_length_le_one E t pa me hnd
  have hmeth : ∀ pa me : String,
      me ∈ ((Resource.update (fun n => n.withSubResources subs) p t).toOpenAPI E).methods pa
        ↔ me ∈ (t.toOpenAPI E).methods pa := by
    intro pa me
    rw [mem_methods_iff, mem_methods_iff, hsearch]
  refine ⟨hsearch, hmeth, ?_⟩
  intro pa
  rw [mem_paths_iff _ (WF_toOpenAPI E _), mem_paths_iff _ (WF_toOpenAPI E _)]
  exact ⟨fun ⟨m, hm⟩ => ⟨m, (hmeth pa m).1 hm⟩, fun ⟨m, hm⟩ => ⟨m, (hmeth pa m).2 hm⟩⟩

/-! ## Worked examples: calls on a tree -/

theorem Operation_appends_witness :
    exampleBare.deref [0] = some (.mk "/a" () none [.mk "/a/b" () none [] [] []] [] []) ∧
    (callOperation exampleBare [0] "not-a-verb" "op-a").1.deref [0]
      = some (.mk "/a" () none [.mk "/a/b" () none [] [] []] [⟨"not-a-verb", "op-a"⟩] []) ∧
    ((callOperation exampleBare [0] "not-a-verb" "op-a").1.deref []).map Resource.operations
      = some [] ∧
    ((callOperation exampleBare [0] "not-a-verb" "op-a").1.deref [0, 0]).map
      Resource.operations = some [] :=
  ⟨rfl,
   (Operation_appends exampleBare (.mk "/a" () none [.mk "/a/b" () none [] [] []] [] []) [0]
      "not-a-verb" "op-a" rfl).1,
   by decide, by decide⟩

theorem verb_helpers_are_Operation_witness :
    exampleNode.deref [] = some exampleNode ∧
    "post" ∈ ((exec exampleCollab (Call.Post [] "create") exampleNode).toOpenAPI
      exampleCollab).methods "/a" ∧
    "delete" ∈ ((exec exampleCollab (Call.Delete [] "remove") exampleNode).toOpenAPI
      exampleCollab).methods "/a" :=
  ⟨rfl,
   (verb_helpers_are_Operation.2.2 exampleCollab exampleNode exampleNode [] "create" rfl).1
     (by decide),
   (verb_helpers_are_Operation.2.2 exampleCollab exampleNode exampleNode [] "remove"
     rfl).2.2.2.2.2 (by decide)⟩

theorem AddTags_appends_witness :
    exampleBare.deref [] = some exampleBare ∧
    (exampleBare.AddTags ["x", "y", "y"]).tags = ["x"] ++ ["x", "y", "y"] ∧
    ((callAddTagsResult exampleBare [] ["x", "y", "y"]).1.deref []).map Resource.tags
      = some ["x", "x", "y", "y"] :=
  ⟨rfl, (AddTags_appends exampleBare exampleBare [] ["x", "y", "y"] rfl).2.2.1, by decide⟩

theorem path_never_changes_witness :
    (exampleBare.deref [0, 0]).map Resource.path = some "/a/b" ∧
    ((run exampleCollab
        [Call.SubResource [0] ["id"], Call.AddTags [] ["t"], Call.Post [0, 0] "create",
         Call.AddMiddleware [1], Call.toOpenAPI [], Call.SubResource [0, 0] ["/deep"]]
        exampleBare).deref [0, 0]).map Resource.path = some "/a/b" :=
  ⟨rfl,
   path_never_changes exampleCollab
     [Call.SubResource [0] ["id"], Call.AddTags [] ["t"], Call.Post [0, 0] "create",
      Call.AddMiddleware [1], Call.toOpenAPI [], Call.SubResource [0, 0] ["/deep"]]
     exampleBare (.mk "/a/b" () none [] [] []) [0, 0] rfl⟩

theorem paths_nested_reachable_witness :
    exampleNode.subResources = [] ∧
    (∀ p ∈ ((run exampleCollab
        [Call.SubResource [] ["/b", "id"], Call.Get [0] "get-b", Call.Post [] "post-a",
         Call.SubResource [0] ["/c"], Call.Put [0, 0] "put-c"]
        exampleNode).toOpenAPI exampleCollab).paths, StartsWith p "/a") ∧
    ((run exampleCollab
        [Call.SubResource [] ["/b", "id"], Call.Get [0] "get-b", Call.Post [] "post-a",
         Call.SubResource [0] ["/c"], Call.Put [0, 0] "put-c"]
        exampleNode).toOpenAPI exampleCollab).paths
      = ["/a/b/\x7bid\x7d/c", "/a/b/\x7bid\x7d", "/a"] :=
  ⟨rfl,
   (paths_nested_reachable exampleCollab exampleNode
     [Call.SubResource [] ["/b", "id"], Call.Get [0] "get-b", Call.Post [] "post-a",
      Call.SubResource [0] ["/c"], Call.Put [0, 0] "put-c"] rfl).2.2.2,
   by decide⟩

theorem toOpenAPI_child_order_witness :
    (exampleWide.pairs exampleCollab).Nodup ∧
    Container.Search
        ((Resource.update
          (fun n => n.withSubResources
            [.mk "/c" () none [] [⟨"GET", "get-c"⟩, ⟨"POST", "post-c"⟩] [],
             .mk "/a" () none [.mk "/a/b" () none [] [⟨"PUT", "put-b"⟩] []]
               [⟨"GET", "get-a"⟩] []])
          [] exampleWide).toOpenAPI exampleCollab) "/c" "post"
      = Container.Search (exampleWide.toOpenAPI exampleCollab) "/c" "post" ∧
    Container.Search (exampleWide.toOpenAPI exampleCollab) "/c" "post"
      = some (Value.fragment "post-c") :=
  ⟨by decide,
   (toOpenAPI_child_order exampleCollab exampleWide exampleWide []
     [.mk "/c" () none [] [⟨"GET", "get-c"⟩, ⟨"POST", "post-c"⟩] [],
      .mk "/a" () none [.mk "/a/b" () none [] [⟨"PUT", "put-b"⟩] []] [⟨"GET", "get-a"⟩] []]
     rfl (List.Perm.swap _ _ []) (by decide)).1 "/c" "post",
   by decide⟩

/-! ## Theorems: the nodes of the tree after a call -/

theorem ptr_trichotomy (p q : Ptr) :
    (∃ q0 : Ptr, q = p ++ q0) ∨ (∃ (i : Nat) (p1 : Ptr), p = q ++ i :: p1) ∨
    (∃ (c : Ptr) (i j : Nat) (p1 q1 : Ptr), i ≠ j ∧ p = c ++ i :: p1 ∧ q = c ++ j :: q1) := by
  induction p generalizing q with
  | nil => exact Or.inl ⟨q, rfl⟩
  | cons a p1 ih =>
    cases q with
    | nil => exact Or.inr (Or.inl ⟨a, p1, rfl⟩)
    | cons b q1 =>
      by_cases hab : a = b
      · subst hab
        rcases ih q1 with ⟨q0, h0⟩ | ⟨i, p2, h0⟩ | ⟨c, i, j, p2, q2, hij, hp, hq⟩
        · exact Or.inl ⟨q0, by rw [h0]; rfl⟩
        · exact Or.inr (Or.inl ⟨i, p2, by rw [h0]; rfl⟩)
        · exact Or.inr (Or.inr ⟨a :: c, i, j, p2, q2, hij, by rw [hp]; rfl, by rw [hq]; rfl⟩)
      · exact Or.inr (Or.inr ⟨[], a, b, p1, q1, hab, rfl, rfl⟩)

theorem deref_cons_of_no_children (r : Resource M R D) (h : r.subResources = []) (i : Nat)
    (q : Ptr) : r.deref (i :: q) = none := by
  rw [deref_cons, h]
  rfl

theorem deref_SubResource_new (E : Collab M D F) (r : Resource M R D) (parts : List String)
    (i : Nat) (q1 : Ptr) (n1 : Resource M R D)
    (h : (r.SubResource E parts).1.deref (i :: q1) = some n1) :
    r.deref (i :: q1) = some n1 ∨
    (i = r.subResources.length ∧ q1 = [] ∧ n1 = (r.SubResource E parts).2) := by
  rw [deref_cons, (SubResource_fst_fields E r parts).2.2.2.2.2] at h
  rcases Nat.lt_trichotomy i r.subResources.length with hlt | heq | hgt
  · left
    rw [List.getElem?_append_left hlt] at h
    rw [deref_cons]
    exact h
  · right
    subst heq
    have hget : (r.subResources ++ [(r.SubResource E parts).2])[r.subResources.length]?
        = some (r.SubResource E parts).2 := by
      simp
    rw [hget] at h
    simp only [Option.some_bind] at h
    cases q1 with
    | nil =>
      rw [deref_nil] at h
      exact ⟨rfl, rfl, (Option.some.inj h).symm⟩
    | cons x q2 =>
      rw [deref_cons_of_no_children _ (SubResource_snd_fields E r parts).2.1] at h
      exact absurd h (by simp)
  · exfalso
    have hnone : (r.subResources ++ [(r.SubResource E parts).2])[i]? = none := by
      apply List.getElem?_eq_none
      simp
      omega
    rw [hnone] at h
    simp at h

theorem deref_callSubResource_cases (E : Collab M D F) (root r : Resource M R D) (p : Ptr)
    (parts : List String) (h : root.deref p = some r) (q : Ptr) (n1 : Resource M R D)
    (hq : (callSubResource E root p parts).1.deref q = some n1) :
    (∃ n, root.deref q = some n ∧ n.path = n1.path) ∨
    (q = p ++ [r.subResources.length] ∧ n1.path = r.path ++ uriTemplate parts) := by
  simp only [callSubResource] at hq
  rcases ptr_trichotomy p q with ⟨q0, h0⟩ | ⟨i, p1, h0⟩ | ⟨c, i, j, p1, q1, hij, hp, hq0⟩
  · subst h0
    rw [deref_update_below, h] at hq
    simp only [Option.some_bind] at hq
    cases q0 with
    | nil =>
      rw [deref_nil] at hq
      left
      refine ⟨r, by rw [List.append_nil]; exact h, ?_⟩
      rw [← Option.some.inj hq]
      exact ((SubResource_fst_fields E r parts).1).symm
    | cons i q1 =>
      rcases deref_SubResource_new E r parts i q1 n1 hq with hold | ⟨hi, hq1, hn⟩
      · left
        exact ⟨n1, by rw [deref_append, h]; exact hold, rfl⟩
      · right
        subst hi
        subst hq1
        refine ⟨rfl, ?_⟩
        rw [hn]
        simp [Resource.SubResource, newSubResource, Resource.path]
  · subst h0
    rw [deref_update_above] at hq
    cases hd : root.deref q with
    | none => simp [hd] at hq
    | some n =>
      rw [hd] at hq
      left
      refine ⟨n, rfl, ?_⟩
      have : Resource.update (fun r => (r.SubResource E parts).1) (i :: p1) n = n1 := by
        simpa using hq
      rw [← this, path_update_cons]
  · subst hp
    subst hq0
    rw [deref_update_sibling _ c i j p1 q1 hij] at hq
    left
    exact ⟨n1, hq, rfl⟩

theorem deref_update_rev (f : Resource M R D → Resource M R D)
    (hpath : ∀ r, (f r).path = r.path) (hsubs : ∀ r, (f r).subResources = r.subResources)
    (p q : Ptr) (root n1 : Resource M R D)
    (hq : (Resource.update f p root).deref q = some n1) :
    ∃ n, root.deref q = some n ∧ n.path = n1.path := by
  rcases ptr_trichotomy p q with ⟨q0, h0⟩ | ⟨i, p1, h0⟩ | ⟨c, i, j, p1, q1, hij, hp, hq0⟩
  · subst h0
    rw [deref_update_below] at hq
    cases hd : root.deref p with
    | none => simp [hd] at hq
    | some r =>
      rw [hd] at hq
      simp only [Option.some_bind] at hq
      cases q0 with
      | nil =>
        rw [deref_nil] at hq
        refine ⟨r, by rw [List.append_nil]; exact hd, ?_⟩
        rw [← Option.some.inj hq]
        exact (hpath r).symm
      | cons i q1 =>
        rw [deref_of_same_subResources r _ (hsubs r)] at hq
        exact ⟨n1, by rw [deref_append, hd]; exact hq, rfl⟩
  · subst h0
    rw [deref_update_above] at hq
    cases hd : root.deref q with
    | none => simp [hd] at hq
    | some n =>
      rw [hd] at hq
      refine ⟨n, rfl, ?_⟩
      have : Resource.update f (i :: p1) n = n1 := by simpa using hq
      rw [← this, path_update_cons]
  · subst hp
    subst hq0
    rw [deref_update_sibling _ c i j p1 q1 hij] at hq
    exact ⟨n1, hq, rfl⟩

theorem deref_exec_rev (E : Collab M D F) (c : Call D) (root n1 : Resource M R D) (q : Ptr)
    (hc : ∀ (p : Ptr) (parts : List String), c ≠ Call.SubResource p parts)
    (hq : (exec E c root).deref q = some n1) :
    ∃ n, root.deref q = some n ∧ n.path = n1.path := by
  have hop : ∀ (method : String) (details : D) (p : Ptr),
      (Resource.update (fun r => (r.Operation method details).1) p root).deref q = some n1 →
      ∃ n, root.deref q = some n ∧ n.path = n1.path := by
    intro method details p h1
    exact deref_update_rev _ (fun r => (Operation_fields r method details).1)
      (fun r => (Operation_fields r method details).2.2.2.1) p q root n1 h1
  cases c with
  | SubResource p parts => exact absurd rfl (hc p parts)
  | Operation p method details => exact hop method details p hq
  | Post p details => exact hop MethodPost details p hq
  | Head p details => exact hop MethodHead details p hq
  | Get p details => exact hop MethodGet details p hq
  | Put p details => exact hop MethodPut details p hq
  | Patch p details => exact hop MethodPatch details p hq
  | Delete p details => exact hop MethodDelete details p hq
  | AddTags p names =>
    exact deref_update_rev _ (fun r => (AddTags_fields r names).1)
      (fun r => (AddTags_fields r names).2.2.2.2.1) p q root n1 hq
  | AddMiddleware p =>
    exact deref_update_rev _ (fun _ => rfl) (fun _ => rfl) p q root n1 hq
  | toOpenAPI p => exact ⟨n1, hq, rfl⟩

/-! ## Theorems: building the tree on a chi mux -/

theorem mem_mountedOn_iff (s : Built M R D) (q : Ptr) (t : String) :
    t ∈ s.mountedOn q ↔ (q, t) ∈ s.mounts := by
  unfold Built.mountedOn
  rw [List.mem_map]
  constructor
  · rintro ⟨e, he, ht⟩
    have h1 := List.mem_filter.1 he
    have h2 : e.1 = q := by simpa using h1.2
    have : e = (q, t) := by
      cases e
      simp only [Prod.mk.injEq]
      exact ⟨h2, ht⟩
    rw [← this]
    exact h1.1
  · intro h
    exact ⟨(q, t), List.mem_filter.2 ⟨h, by simp⟩, rfl⟩

theorem deref_parent_of_child (root c : Resource M R D) (q : Ptr) (i : Nat)
    (h : root.deref (q ++ [i]) = some c) : ∃ n, root.deref q = some n := by
  rw [deref_append] at h
  cases hd : root.deref q with
  | none => simp [hd] at h
  | some n => exact ⟨n, rfl⟩

theorem deref_new_child_none (root r : Resource M R D) (p q0 : Ptr)
    (h : root.deref p = some r) : root.deref (p ++ r.subResources.length :: q0) = none := by
  rw [deref_append, h]
  simp only [Option.some_bind]
  rw [deref_cons, List.getElem?_eq_none (Nat.le_refl _)]
  rfl

theorem SubResourceOnChi_some (C : Chi) (E : Collab M D F) (s s1 : Built M R D) (p ptr : Ptr)
    (parts : List String) (h : SubResourceOnChi C E s p parts = some (s1, ptr)) :
    ∃ r, s.root.deref p = some r ∧
      C.refuses (s.mountedOn p) (uriTemplate parts) = false ∧
      s1 = ⟨(callSubResource E s.root p parts).1, (p, uriTemplate parts) :: s.mounts⟩ ∧
      ptr = (callSubResource E s.root p parts).2 := by
  unfold SubResourceOnChi at h
  cases hd : s.root.deref p with
  | none => simp [hd] at h
  | some r =>
    rw [hd] at h
    by_cases hr : C.refuses (s.mountedOn p) (uriTemplate parts) = true
    · simp [hr] at h
    · simp only [if_neg hr, Option.some.injEq, Prod.mk.injEq] at h
      exact ⟨r, rfl, by simpa using hr, h.1.symm, h.2.symm⟩

theorem invariants_initial (root0 : Resource M R D) (mounts0 : List (Ptr × String))
    (h0 : root0.subResources = []) :
    (Built.mk root0 mounts0).ChildrenMounted ∧ (Built.mk root0 mounts0).SiblingsDiffer := by
  have hnone : ∀ (q : Ptr) (i : Nat), root0.deref (q ++ [i]) = none := by
    intro q i
    cases q with
    | nil => exact deref_cons_of_no_children root0 h0 i []
    | cons x q1 => exact deref_cons_of_no_children root0 h0 x (q1 ++ [i])
  constructor
  · intro q i n c _ hc
    rw [hnone q i] at hc
    exact absurd hc (by simp)
  · intro q i j ci cj hci
    rw [hnone q i] at hci
    exact absurd hci (by simp)

theorem invariants_exec_other (E : Collab M D F) (c : Call D) (s : Built M R D)
    (hc : ∀ (p : Ptr) (parts : List String), c ≠ Call.SubResource p parts)
    (h : s.ChildrenMounted ∧ s.SiblingsDiffer) :
    (Built.mk (exec E c s.root) s.mounts).ChildrenMounted ∧
    (Built.mk (exec E c s.root) s.mounts).SiblingsDiffer := by
  constructor
  · intro q i n1 c1 hn hc1
    obtain ⟨n, hn0, hnp⟩ := deref_exec_rev E c s.root n1 q hc hn
    obtain ⟨c0, hc0, hcp⟩ := deref_exec_rev E c s.root c1 (q ++ [i]) hc hc1
    obtain ⟨t, ht, hpath⟩ := h.1 q i n c0 hn0 hc0
    exact ⟨t, ht, by rw [← hcp, ← hnp]; exact hpath⟩
  · intro q i j ci cj hci hcj hij
    obtain ⟨ci0, hci0, hcip⟩ := deref_exec_rev E c s.root ci (q ++ [i]) hc hci
    obtain ⟨cj0, hcj0, hcjp⟩ := deref_exec_rev E c s.root cj (q ++ [j]) hc hcj
    rw [← hcip, ← hcjp]
    exact h.2 q i j ci0 cj0 hci0 hcj0 hij

theorem invariants_SubResource (C : Chi) (E : Collab M D F) (s : Built M R D)
    (r : Resource M R D) (p : Ptr) (parts : List String) (hr : s.root.deref p = some r)
    (hfree : C.refuses (s.mountedOn p) (uriTemplate parts) = false)
    (h : s.ChildrenMounted ∧ s.SiblingsDiffer) :
    (Built.mk (callSubResource E s.root p parts).1
      ((p, uriTemplate parts) :: s.mounts)).ChildrenMounted ∧
    (Built.mk (callSubResource E s.root p parts).1
      ((p, uriTemplate parts) :: s.mounts)).SiblingsDiffer := by
  have hnot : uriTemplate parts ∉ s.mountedOn p := by
    intro hin
    rw [C.refuses_mounted _ _ hin] at hfree
    exact absurd hfree (by simp)
  have hsplit : ∀ (q : Ptr) (i : Nat), q ++ [i] = p ++ [r.subResources.length] →
      q = p ∧ i = r.subResources.length := by
    intro q i heq
    have := List.append_inj' heq rfl
    exact ⟨this.1, by simpa using this.2⟩
  have hparent : ∀ n1, (callSubResource E s.root p parts).1.deref p = some n1 →
      n1.path = r.path := by
    intro n1 hn1
    rw [deref_callSubResource_parent E s.root r p parts hr] at hn1
    rw [← Option.some.inj hn1]
    exact (SubResource_fst_fields E r parts).1
  have hold : ∀ (j : Nat) (cj : Resource M R D), s.root.deref (p ++ [j]) = some cj →
      cj.path ≠ r.path ++ uriTemplate parts := by
    intro j cj hcj heq
    obtain ⟨t, ht, hpath⟩ := h.1 p j r cj hr hcj
    rw [hpath] at heq
    exact hnot ((string_append_left_cancel r.path t (uriTemplate parts)).1 heq ▸ ht)
  constructor
  · intro q i n1 c1 hn hc1
    rcases deref_callSubResource_cases E s.root r p parts hr (q ++ [i]) c1 hc1 with
      ⟨c0, hc0, hcp⟩ | ⟨hptr, hcp⟩
    · rcases deref_callSubResource_cases E s.root r p parts hr q n1 hn with
        ⟨n0, hn0, hnp⟩ | ⟨hq, _⟩
      · obtain ⟨t, ht, hpath⟩ := h.1 q i n0 c0 hn0 hc0
        refine ⟨t, ?_, by rw [← hcp, ← hnp]; exact hpath⟩
        rw [mem_mountedOn_iff] at ht ⊢
        exact List.mem_cons_of_mem _ ht
      · exfalso
        rw [hq, List.append_assoc] at hc0
        have hc2 : s.root.deref (p ++ r.subResources.length :: [i]) = some c0 := hc0
        rw [deref_new_child_none s.root r p [i] hr] at hc2
        exact absurd hc2 (by simp)
    · obtain ⟨hq, _⟩ := hsplit q i hptr
      rw [hq] at hn ⊢
      refine ⟨uriTemplate parts, ?_, by rw [hcp, hparent n1 hn]⟩
      rw [mem_mountedOn_iff]
      exact List.mem_cons_self _ _
  · intro q i j ci cj hci hcj hij
    rcases deref_callSubResource_cases E s.root r p parts hr (q ++ [i]) ci hci with
      ⟨ci0, hci0, hcip⟩ | ⟨hpi, hcip⟩
    · rcases deref_callSubResource_cases E s.root r p parts hr (q ++ [j]) cj hcj with
        ⟨cj0, hcj0, hcjp⟩ | ⟨hpj, hcjp⟩
      · rw [← hcip, ← hcjp]
        exact h.2 q i j ci0 cj0 hci0 hcj0 hij
      · obtain ⟨hq, _⟩ := hsplit q j hpj
        rw [hq] at hci0
        rw [← hcip, hcjp]
        exact hold i ci0 hci0
    · obtain ⟨hq, hi⟩ := hsplit q i hpi
      rw [hq] at hcj
      rcases deref_callSubResource_cases E s.root r p parts hr (p ++ [j]) cj hcj with
        ⟨cj0, hcj0, hcjp⟩ | ⟨hpj, _⟩
      · rw [hcip, ← hcjp]
        exact fun heq => hold j cj0 hcj0 heq.symm
      · obtain ⟨_, hj⟩ := hsplit p j hpj
        exact absurd (hi.trans hj.symm) hij

theorem invariants_execOnChi (C : Chi) (E : Collab M D F) (c : Call D) (s s1 : Built M R D)
    (hrun : execOnChi C E c s = some s1) (h : s.ChildrenMounted ∧ s.SiblingsDiffer) :
    s1.ChildrenMounted ∧ s1.SiblingsDiffer := by
  have hother : (∀ (p : Ptr) (parts : List String), c ≠ Call.SubResource p parts) →
      execOnChi C E c s = some ⟨exec E c s.root, s.mounts⟩ := by
    intro hc
    cases c with
    | SubResource p parts => exact absurd rfl (hc p parts)
    | Operation p method details => rfl
    | Post p details => rfl
    | Head p details => rfl
    | Get p details => rfl
    | Put p details => rfl
    | Patch p details => rfl
    | Delete p details => rfl
    | AddTags p names => rfl
    | AddMiddleware p => rfl
    | toOpenAPI p => rfl
  by_cases hc : ∀ (p : Ptr) (parts : List String), c ≠ Call.SubResource p parts
  · rw [hother hc] at hrun
    rw [← Option.some.inj hrun]
    exact invariants_exec_other E c s hc h
  · have hex : ∃ (p : Ptr) (parts : List String), c = Call.SubResource p parts := by
      by_contra hne
      exact hc (fun p parts heq => hne ⟨p, parts, heq⟩)
    obtain ⟨p, parts, hcp⟩ := hex
    subst hcp
    simp only [execOnChi] at hrun
    cases hs : SubResourceOnChi C E s p parts with
    | none => simp [hs] at hrun
    | some res =>
      obtain ⟨s2, ptr⟩ := res
      rw [hs] at hrun
      have hs1 : s2 = s1 := by simpa using hrun
      obtain ⟨r, hr, hfree, hs2, _⟩ := SubResourceOnChi_some C E s s2 p ptr parts hs
      rw [← hs1, hs2]
      exact invariants_SubResource C E s r p parts hr hfree h

theorem invariants_runOnChi (C : Chi) (E : Collab M D F) (calls : List (Call D))
    (s s1 : Built M R D) (hrun : runOnChi C E calls s = some s1)
    (h : s.ChildrenMounted ∧ s.SiblingsDiffer) :
    s1.ChildrenMounted ∧ s1.SiblingsDiffer := by
  induction calls generalizing s with
  | nil =>
    simp only [runOnChi] at hrun
    rw [← Option.some.inj hrun]
    exact h
  | cons c rest ih =>
    simp only [runOnChi] at hrun
    cases he : execOnChi C E c s with
    | none => simp [he] at hrun
    | some s2 =>
      rw [he] at hrun
      exact ih s2 hrun (invariants_execOnChi C E c s s2 he h)

theorem SubResourceOnChi_again (C : Chi) (E : Collab M D F) (s s1 : Built M R D) (p ptr : Ptr)
    (parts1 parts2 : List String) (h : SubResourceOnChi C E s p parts1 = some (s1, ptr))
    (hsame : uriTemplate parts2 = uriTemplate parts1) :
    SubResourceOnChi C E s1 p parts2 = none := by
  obtain ⟨r, hr, _, hs1, _⟩ := SubResourceOnChi_some C E s s1 p ptr parts1 h
  have hmounted : uriTemplate parts2 ∈ s1.mountedOn p := by
    rw [mem_mountedOn_iff, hs1, hsame]
    exact List.mem_cons_self _ _
  unfold SubResourceOnChi
  cases s1.root.deref p with
  | none => rfl
  | some r1 =>
    simp only [C.refuses_mounted _ _ hmounted, if_true]

theorem SubResourceOnChi_of_empty (C : Chi) (E : Collab M D F) (s : Built M R D) (p : Ptr)
    (parts : List String) (h : uriTemplate parts = "") :
    SubResourceOnChi C E s p parts = none := by
  unfold SubResourceOnChi
  cases s.root.deref p with
  | none => rfl
  | some r =>
    simp only [h, C.refuses_empty, if_true]

theorem newSubResource_congr (E : Collab M D F) (r : Resource M R D) (parts1 parts2 : List String)
    (h : uriTemplate parts1 = uriTemplate parts2) :
    newSubResource E r parts1 = newSubResource E r parts2 := by
  unfold newSubResource
  rw [h]

theorem SubResourceOnChi_congr (C : Chi) (E : Collab M D F) (s : Built M R D) (p : Ptr)
    (parts1 parts2 : List String) (h : uriTemplate parts1 = uriTemplate parts2) :
    SubResourceOnChi C E s p parts1 = SubResourceOnChi C E s p parts2 := by
  have hf : (fun r : Resource M R D => (r.SubResource E parts1).1)
      = (fun r : Resource M R D => (r.SubResource E parts2).1) := by
    funext r
    simp only [Resource.SubResource, newSubResource_congr E r parts1 parts2 h]
  unfold SubResourceOnChi callSubResource
  rw [h, hf]

/-! ## Theorems: empty parts and sibling paths on a chi mux -/

theorem uriTemplate_filter (parts : List String) :
    uriTemplate (parts.filter (fun part => part ≠ "")) = uriTemplate parts := by
  rw [uriTemplate_eq_specSuffix, uriTemplate_eq_specSuffix, specSuffix_filter]

theorem uriTemplate_all_empty (parts : List String) (h : ∀ part ∈ parts, part = "") :
    uriTemplate parts = "" := by
  rw [uriTemplate_eq_specSuffix, specSuffix_all_empty parts h]

/-- C7, as amended: empty parts contribute nothing: with the empty strings dropped from the
list the router gets the same template, so the call does the same, panic or child, and a
child that is returned has the same path; `SubResource("", "id", "")` and `SubResource("id")`
agree.  A list of empty parts only composes the empty template, which the chi mux refuses:
the call panics and there is no child. -/
theorem SubResource_ignores_empty_parts :
    (∀ (E : Collab M D F) (r : Resource M R D) (parts : List String),
      (r.SubResource E parts).2.path
        = (r.SubResource E (parts.filter (fun part => part ≠ ""))).2.path) ∧
    (∀ (E : Collab M D F) (r : Resource M R D),
      (r.SubResource E ["", "id", ""]).2.path = (r.SubResource E ["id"]).2.path) ∧
    (∀ (C : Chi) (E : Collab M D F) (s : Built M R D) (p : Ptr) (parts : List String),
      SubResourceOnChi C E s p parts
        = SubResourceOnChi C E s p (parts.filter (fun part => part ≠ ""))) ∧
    (∀ (C : Chi) (E : Collab M D F) (s : Built M R D) (p : Ptr) (parts : List String),
      (∀ part ∈ parts, part = "") → SubResourceOnChi C E s p parts = none) := by
  have key : ∀ (E : Collab M D F) (r : Resource M R D) (parts : List String),
      (r.SubResource E parts).2.path = r.path ++ specSuffix parts := by
    intro E r parts
    simp [Resource.SubResource, newSubResource, Resource.path, uriTemplate_eq_specSuffix]
  refine ⟨?_, ?_, ?_, ?_⟩
  · intro E r parts
    rw [key, key, specSuffix_filter]
  · intro E r
    rw [key, key]
    congr 1
  · intro C E s p parts
    exact SubResourceOnChi_congr C E s p _ _ (uriTemplate_filter parts).symm
  · intro C E s p parts h
    exact SubResourceOnChi_of_empty C E s p parts (uriTemplate_all_empty parts h)

/-- C7, as the specification states it, fails: a list of empty parts only does not yield a
child at the path of the parent.  On the node at `/a` the call `SubResource("", "", "")`
hands the empty template to `Route`, which panics on every chi mux, and no child is made. -/
theorem SubResource_of_empty_parts_panics :
    uriTemplate ["", "", ""] = "" ∧
    (SubResourceOnChi exampleChi exampleCollab
      (Built.mk exampleNode []) [] ["", "", ""]).isNone = true ∧
    (∀ C : Chi,
      SubResourceOnChi C exampleCollab (Built.mk exampleNode []) [] ["", "", ""] = none) :=
  ⟨by decide, by decide,
   fun C => SubResourceOnChi_of_empty C exampleCollab _ [] _ (by decide)⟩

theorem SubResource_ignores_empty_parts_witness :
    SubResourceOnChi exampleChi exampleCollab (Built.mk exampleNode []) [] ["", "id", ""]
      = SubResourceOnChi exampleChi exampleCollab (Built.mk exampleNode []) []
          (["", "id", ""].filter (fun part => part ≠ "")) ∧
    ((SubResourceOnChi exampleChi exampleCollab (Built.mk exampleNode []) []
        ["", "id", ""]).bind (fun res => res.1.root.deref res.2)).map Resource.path
      = some "/a/\x7bid\x7d" ∧
    ((SubResourceOnChi exampleChi exampleCollab (Built.mk exampleNode []) []
        ["id"]).bind (fun res => res.1.root.deref res.2)).map Resource.path
      = some "/a/\x7bid\x7d" :=
  ⟨SubResource_ignores_empty_parts.2.2.1 exampleChi exampleCollab (Built.mk exampleNode []) []
    ["", "id", ""], by decide, by decide⟩

/-- C16: sibling paths differ by construction: in every tree that a sequence of calls builds
from a single root node on a chi mux, any two different children of a node have different
paths, so the paths of the children of a node are without repetition; a second call of
`SubResource` on a node with parts that compose a template used there before panics in
`Route` and makes no child. -/
theorem sibling_paths_differ (C : Chi) (E : Collab M D F) (root0 : Resource M R D)
    (mounts0 : List (Ptr × String)) (calls : List (Call D)) (s : Built M R D)
    (h0 : root0.subResources = [])
    (hrun : runOnChi C E calls (Built.mk root0 mounts0) = some s) :
    (∀ (q : Ptr) (i j : Nat) (ci cj : Resource M R D),
      s.root.deref (q ++ [i]) = some ci → s.root.deref (q ++ [j]) = some cj →
      i ≠ j → ci.path ≠ cj.path) ∧
    (∀ (q : Ptr) (n : Resource M R D), s.root.deref q = some n →
      (n.subResources.map Resource.path).Nodup) ∧
    (∀ (p ptr : Ptr) (parts1 parts2 : List String) (s1 : Built M R D),
      SubResourceOnChi C E s p parts1 = some (s1, ptr) →
      uriTemplate parts2 = uriTemplate parts1 →
      SubResourceOnChi C E s1 p parts2 = none) := by
  have hinv := invariants_runOnChi C E calls _ s hrun (invariants_initial root0 mounts0 h0)
  refine ⟨hinv.2, ?_, ?_⟩
  · intro q n hq
    rw [List.nodup_iff_getElem?_ne_getElem?]
    intro i j hij hj
    rw [List.length_map] at hj
    have hi : i < n.subResources.length := Nat.lt_trans hij hj
    rw [List.getElem?_map, List.getElem?_map, List.getElem?_eq_getElem hi,
      List.getElem?_eq_getElem hj]
    have hci : s.root.deref (q ++ [i]) = some n.subResources[i] := by
      rw [deref_append, hq]
      simp only [Option.some_bind]
      rw [deref_cons, List.getElem?_eq_getElem hi]
      simp [deref_nil]
    have hcj : s.root.deref (q ++ [j]) = some n.subResources[j] := by
      rw [deref_append, hq]
      simp only [Option.some_bind]
      rw [deref_cons, List.getElem?_eq_getElem hj]
      simp [deref_nil]
    intro heq
    exact hinv.2 q i j _ _ hci hcj (Nat.ne_of_lt hij) (by simpa using heq)
  · intro p ptr parts1 parts2 s1 h1 hsame
    exact SubResourceOnChi_again C E s s1 p ptr parts1 parts2 h1 hsame

theorem sibling_paths_differ_witness :
    exampleNode.subResources = [] ∧
    (runOnChi exampleChi exampleCollab
      [Call.SubResource [] ["id"], Call.SubResource [] ["/x"], Call.Post [0] "create",
       Call.SubResource [0] ["id"]] (Built.mk exampleNode [])).isSome = true ∧
    (exampleBuilt.root.deref [0]).map Resource.path = some "/a/\x7bid\x7d" ∧
    (exampleBuilt.root.deref [1]).map Resource.path = some "/a/x" ∧
    (∀ ci cj : Resource Unit Unit String,
      exampleBuilt.root.deref ([] ++ [0]) = some ci →
      exampleBuilt.root.deref ([] ++ [1]) = some cj → 0 ≠ 1 → ci.path ≠ cj.path) ∧
    (runOnChi exampleChi exampleCollab
      [Call.SubResource [] ["id"], Call.SubResource [] ["id"]]
      (Built.mk exampleNode [])).isNone = true :=
  ⟨rfl, by decide, by decide, by decide,
   (sibling_paths_differ exampleChi exampleCollab exampleNode []
     [Call.SubResource [] ["id"], Call.SubResource [] ["/x"], Call.Post [0] "create",
      Call.SubResource [0] ["id"]] exampleBuilt rfl rfl).1 [] 0 1,
   by decide⟩

end Huma
